import Mathlib

/-!
Verification of the block-list memory allocator simulator
(`mem_sim_simple.py`): data model, the four placement strategies,
allocate / deallocate / coalesce / compact, and the statistics query.
Python integers are modelled by `Int`, Python lists by `List`,
`Optional[T]` by `Option T`, and a raised `ValueError` by the
`Except.error` branch of the return type.
-/

set_option maxHeartbeats 1000000

/-- A region of the simulated address range: start offset, size, free flag and
owner tag, mirroring the `Block` dataclass. -/
structure Block where
  start : Int
  size : Int
  free : Bool := true
  tag : Option String := none
deriving DecidableEq, Repr

/-- Derived exclusive end offset of a block (the `Block.end` property). -/
def Block.endAddr (b : Block) : Int := b.start + b.size

/-- A named job with a requested size (the `Process` dataclass). -/
structure Process where
  name : String
  size : Int
deriving DecidableEq, Repr

/-- The allocator state: total units, the block list, and the next-fit scan
cursor (`Memory.total`, `Memory.blocks`, `Memory._next_fit_index`). -/
structure Memory where
  total : Int
  blocks : List Block
  next_fit_index : Nat := 0
deriving DecidableEq, Repr

/-- Loop of `Memory.__init__`: lay the given sizes out consecutively starting
at `pos`, returning the created blocks and the final position. -/
def layoutLoop : Int → List Int → List Block × Int
  | pos, [] => ([], pos)
  | pos, sz :: rest =>
    let r := layoutLoop (pos + sz) rest
    ({ start := pos, size := sz, free := true, tag := none } :: r.1, r.2)

/-- `Memory.__init__`: with a truthy (non-`None`, nonempty) `initial_free_sizes`
list the sizes are laid out from offset 0 and a trailing free block covers any
remainder up to `total`; otherwise a single free block spans the whole range.
The constructor performs no validation of the sizes or of their sum. -/
def Memory.init (total : Int) (initial_free_sizes : Option (List Int)) : Memory :=
  match initial_free_sizes with
  | some sizes =>
    if sizes = [] then
      { total := total, blocks := [{ start := 0, size := total }], next_fit_index := 0 }
    else
      let r := layoutLoop 0 sizes
      let blocks :=
        if r.2 < total then r.1 ++ [{ start := r.2, size := total - r.2 }] else r.1
      { total := total, blocks := blocks, next_fit_index := 0 }
  | none => { total := total, blocks := [{ start := 0, size := total }], next_fit_index := 0 }

/-- The stable sort by `start` performed by `self.blocks.sort(key=...)`;
insertion sort with ties kept in original order computes the same function as
any stable sort by the same key. -/
def sortByStart (l : List Block) : List Block :=
  l.insertionSort (fun a b => a.start ≤ b.start)

/-- Loop of `Memory._coalesce`: walk the sorted list, growing the previously
kept block in place while the next block is free, adjacent, and the kept block
is free (the `merged[-1].size += b.size` branch). -/
def mergeRun : List Block → List Block
  | [] => []
  | [b] => [b]
  | a :: b :: rest =>
    if a.free = true ∧ b.free = true ∧ a.endAddr = b.start then
      mergeRun ({ a with size := a.size + b.size } :: rest)
    else
      a :: mergeRun (b :: rest)
termination_by l => l.length

/-- `Memory._coalesce`: sort by start, then merge adjacent free blocks. -/
def Memory._coalesce (m : Memory) : Memory :=
  { m with blocks := mergeRun (sortByStart m.blocks) }

/-- Loop of `Memory.compact`: re-lay the used blocks consecutively from `cur`,
returning the rebuilt blocks and the final position. -/
def relayoutLoop : Int → List Block → List Block × Int
  | cur, [] => ([], cur)
  | cur, b :: rest =>
    let r := relayoutLoop (cur + b.size) rest
    ({ start := cur, size := b.size, free := false, tag := b.tag } :: r.1, r.2)

/-- `Memory.compact`: slide all used blocks (in order of start) to the left,
append one trailing free block when space remains, and reset the next-fit
cursor to 0. -/
def Memory.compact (m : Memory) : Memory :=
  let used := (sortByStart m.blocks).filter (fun b => !b.free)
  let r := relayoutLoop 0 used
  let new_blocks :=
    if r.2 < m.total then
      r.1 ++ [{ start := r.2, size := m.total - r.2, free := true, tag := none }]
    else r.1
  { m with blocks := new_blocks, next_fit_index := 0 }

/-- Loop of `Memory._find_first_fit`, carrying the `enumerate` index. -/
def findFirstFrom (need : Int) : Nat → List Block → Option Nat
  | _, [] => none
  | i, b :: rest =>
    if b.free = true ∧ need ≤ b.size then some i else findFirstFrom need (i + 1) rest

/-- `Memory._find_first_fit`: index of the first free block of sufficient
size. -/
def Memory._find_first_fit (m : Memory) (need : Int) : Option Nat :=
  findFirstFrom need 0 m.blocks

/-- The `(index, size - need)` candidate list comprehension shared by
`_find_best_fit` and `_find_worst_fit`, carrying the `enumerate` index. -/
def candidatesFrom (need : Int) : Nat → List Block → List (Nat × Int)
  | _, [] => []
  | i, b :: rest =>
    if b.free = true ∧ need ≤ b.size then
      (i, b.size - need) :: candidatesFrom need (i + 1) rest
    else candidatesFrom need (i + 1) rest

/-- Python `min(candidates, key=slack)`: the first element with minimal slack
(a later element replaces the current best only when strictly smaller). -/
def pyMinBySlack (x : Nat × Int) (xs : List (Nat × Int)) : Nat × Int :=
  xs.foldl (fun best y => if y.2 < best.2 then y else best) x

/-- Python `max(candidates, key=slack)`: the first element with maximal slack
(a later element replaces the current best only when strictly larger). -/
def pyMaxBySlack (x : Nat × Int) (xs : List (Nat × Int)) : Nat × Int :=
  xs.foldl (fun best y => if best.2 < y.2 then y else best) x

/-- `Memory._find_best_fit`: among free blocks of sufficient size, the index
minimizing `size - need`, ties to the earliest. -/
def Memory._find_best_fit (m : Memory) (need : Int) : Option Nat :=
  match candidatesFrom need 0 m.blocks with
  | [] => none
  | x :: xs => some (pyMinBySlack x xs).1

/-- `Memory._find_worst_fit`: among free blocks of sufficient size, the index
maximizing `size - need`, ties to the earliest. -/
def Memory._find_worst_fit (m : Memory) (need : Int) : Option Nat :=
  match candidatesFrom need 0 m.blocks with
  | [] => none
  | x :: xs => some (pyMaxBySlack x xs).1

/-- The loop body test of `_find_next_fit` at probe index `i`. -/
def nextFitProbe (blocks : List Block) (need : Int) (i : Nat) : Bool :=
  match blocks[i]? with
  | some b => b.free && decide (need ≤ b.size)
  | none => false

/-- `Memory._find_next_fit`: scan the indices `(cursor + off) % n` for
`off = 0, …, n-1` and return the first that probes free with sufficient size
(the cursor update on success is performed by `Memory.allocate` below, which
receives the returned index). -/
def Memory._find_next_fit (m : Memory) (need : Int) : Option Nat :=
  let n := m.blocks.length
  ((List.range n).map (fun off => (m.next_fit_index + off) % n)).find?
    (nextFitProbe m.blocks need)

/-- Python `str.lower` on one character, in the ASCII range that the strategy
dispatch compares against (`'A'..'Z'` map to `'a'..'z'`). -/
def pyLowerChar (c : Char) : Char :=
  if 65 ≤ c.toNat ∧ c.toNat ≤ 90 then Char.ofNat (c.toNat + 32) else c

/-- Python `str.lower`, character by character. -/
def pyLower (s : String) : String := String.mk (s.data.map pyLowerChar)

/-- Python `list.insert`: insert `x` at position `n`, appending when `n` is at
or past the end. -/
def insertAt : Nat → Block → List Block → List Block
  | 0, x, l => x :: l
  | _ + 1, x, [] => [x]
  | n + 1, x, b :: t => b :: insertAt n x t

/-- `Memory.allocate`: lower-case the method name, dispatch to the four
strategies (raising `ValueError` otherwise, modelled by `Except.error`), then
either report no fit, flip the exactly-fitting hole in place, or split the
hole into a used block and a free remainder. On a successful next-fit search
the cursor is set to the returned index. -/
def Memory.allocate (m : Memory) (process : Process) (method : String) :
    Except String (Bool × Memory) :=
  let meth := pyLower method
  let found : Option (Option Nat) :=
    if meth = "first" then some (m._find_first_fit process.size)
    else if meth = "best" then some (m._find_best_fit process.size)
    else if meth = "worst" then some (m._find_worst_fit process.size)
    else if meth = "next" then some (m._find_next_fit process.size)
    else none
  match found with
  | none => Except.error "method must be one of: first, best, worst, next"
  | some none => Except.ok (false, m)
  | some (some idx) =>
    let m1 := if meth = "next" then { m with next_fit_index := idx } else m
    match m1.blocks[idx]? with
    | none => Except.ok (false, m1)   -- unreachable: every finder returns an in-range index
    | some hole =>
      if hole.size = process.size then
        let filled : Block := { hole with free := false, tag := some process.name }
        Except.ok (true, { m1 with blocks := m1.blocks.set idx filled })
      else
        let used : Block :=
          { start := hole.start, size := process.size, free := false, tag := some process.name }
        let rest : Block :=
          { start := hole.start + process.size, size := hole.size - process.size,
            free := true, tag := none }
        Except.ok (true, { m1 with blocks := insertAt (idx + 1) rest (m1.blocks.set idx used) })

/-- `Memory.deallocate`: flip every used block carrying `tag` to free, and
coalesce when at least one block was flipped. -/
def Memory.deallocate (m : Memory) (tag : String) : Bool × Memory :=
  let changed := m.blocks.any (fun b => decide (b.free = false ∧ b.tag = some tag))
  let blocks := m.blocks.map (fun b =>
    if b.free = false ∧ b.tag = some tag then { b with free := true, tag := none } else b)
  if changed then (true, Memory._coalesce { m with blocks := blocks }) else (false, m)

/-- The dictionary returned by `summarize_sim`. -/
structure SimSummary where
  sim_total : Int
  sim_used : Int
  sim_free : Int
  sim_largest_hole : Int
  sim_ext_frag_ratio : ℚ
deriving DecidableEq, Repr

/-- Python `max(xs, default=0)`. -/
def maxOr0 : List Int → Int
  | [] => 0
  | x :: xs => xs.foldl max x

/-- Model of Python `round(x, 3)`: scale by 1000, round to the nearest integer
in exact rational arithmetic, unscale. (CPython rounds the nearest double and
sends exact halves to even; no use of this model sits at a half-way tie.) -/
def pyRound3 (q : ℚ) : ℚ := (⌊1000 * q + 1/2⌋ : ℚ) / 1000

/-- `summarize_sim`: totals over the free and used blocks, the largest free
hole, and the rounded external-fragmentation ratio, with Python's true
division modelled by exact rational division. -/
def summarize_sim (m : Memory) : SimSummary :=
  let free_blocks := m.blocks.filter (fun b => b.free)
  let used_blocks := m.blocks.filter (fun b => !b.free)
  let free_total := (free_blocks.map Block.size).sum
  let used_total := (used_blocks.map Block.size).sum
  let largest_hole := maxOr0 (free_blocks.map Block.size)
  let ext_frag : ℚ :=
    if free_total = 0 then 0
    else ((free_total : ℚ) - (largest_hole : ℚ)) / (free_total : ℚ)
  { sim_total := m.total, sim_used := used_total, sim_free := free_total,
    sim_largest_hole := largest_hole, sim_ext_frag_ratio := pyRound3 ext_frag }

/-- Sum of the sizes of a block list. -/
def sizesSum (l : List Block) : Int := (l.map Block.size).sum

/-- The blocks starting at `pos` tile an interval: each block starts exactly
where the previous one ended. -/
def contiguousFrom : Int → List Block → Prop
  | _, [] => True
  | pos, b :: rest => b.start = pos ∧ contiguousFrom (b.start + b.size) rest

def contiguousFromDec : (pos : Int) → (l : List Block) → Decidable (contiguousFrom pos l)
  | _, [] => isTrue trivial
  | pos, b :: rest =>
    haveI : Decidable (contiguousFrom (b.start + b.size) rest) := contiguousFromDec _ rest
    inferInstanceAs (Decidable (b.start = pos ∧ contiguousFrom (b.start + b.size) rest))

instance (pos : Int) (l : List Block) : Decidable (contiguousFrom pos l) :=
  contiguousFromDec pos l

/-- Well-formedness of an allocator state: the blocks tile `[0, total)` left to
right with positive sizes. -/
def WF (m : Memory) : Prop :=
  contiguousFrom 0 m.blocks ∧ (∀ b ∈ m.blocks, 0 < b.size) ∧ sizesSum m.blocks = m.total

instance (m : Memory) : Decidable (WF m) :=
  inferInstanceAs (Decidable (_ ∧ _ ∧ _))

/-- Total size of the used blocks. -/
def usedTotal (m : Memory) : Int := sizesSum (m.blocks.filter (fun b => !b.free))

/-- Total size of the free blocks. -/
def freeTotal (m : Memory) : Int := sizesSum (m.blocks.filter (fun b => b.free))

/-- One driver request against the allocator. -/
inductive Op where
  | alloc (p : Process) (method : String)
  | dealloc (tag : String)
  | compact
deriving DecidableEq, Repr

/-- Apply one request; a raised `ValueError` leaves the state unchanged (the
dispatch raises before any mutation). -/
def Memory.step (m : Memory) : Op → Memory
  | .alloc p meth =>
    match m.allocate p meth with
    | .ok r => r.2
    | .error _ => m
  | .dealloc t => (m.deallocate t).2
  | .compact => m.compact

/-- Apply a sequence of requests in order. -/
def Memory.run (m : Memory) : List Op → Memory := List.foldl Memory.step m

/-- An allocation request with a positive size and a known strategy name;
deallocate and compact requests are unrestricted. -/
def ValidOp : Op → Prop
  | .alloc p meth =>
    0 < p.size ∧ (pyLower meth = "first" ∨ pyLower meth = "best" ∨
      pyLower meth = "worst" ∨ pyLower meth = "next")
  | .dealloc _ => True
  | .compact => True

instance instDecValidOp : (op : Op) → Decidable (ValidOp op)
  | .alloc p meth =>
    inferInstanceAs (Decidable (0 < p.size ∧ (pyLower meth = "first" ∨
      pyLower meth = "best" ∨ pyLower meth = "worst" ∨ pyLower meth = "next")))
  | .dealloc _ => inferInstanceAs (Decidable True)
  | .compact => inferInstanceAs (Decidable True)

/-- Blocks of a block list are never adjacent free pairs. -/
def noAdjacentFree : List Block → Prop
  | [] => True
  | [_] => True
  | a :: b :: rest => ¬(a.free = true ∧ b.free = true) ∧ noAdjacentFree (b :: rest)

def noAdjacentFreeDec : (l : List Block) → Decidable (noAdjacentFree l)
  | [] => isTrue trivial
  | [_] => isTrue trivial
  | a :: b :: rest =>
    haveI := noAdjacentFreeDec (b :: rest)
    inferInstanceAs (Decidable (¬(a.free = true ∧ b.free = true) ∧ noAdjacentFree (b :: rest)))

instance (l : List Block) : Decidable (noAdjacentFree l) := noAdjacentFreeDec l

/-- A block can satisfy a request of `need` units: free and large enough. -/
def fits (need : Int) (b : Block) : Prop := b.free = true ∧ need ≤ b.size

instance (need : Int) (b : Block) : Decidable (fits need b) :=
  inferInstanceAs (Decidable (_ ∧ _))

/-- The tail of `Memory.allocate` after the strategy dispatch: `found` is the
search result and `isNext` records whether the chosen strategy was next-fit
(proved below to agree with `allocate`, and used to reason about all four
strategies at once). -/
def allocFinish (m : Memory) (process : Process) (found : Option Nat) (isNext : Bool) :
    Except String (Bool × Memory) :=
  match found with
  | none => Except.ok (false, m)
  | some idx =>
    let m1 := if isNext then { m with next_fit_index := idx } else m
    match m1.blocks[idx]? with
    | none => Except.ok (false, m1)
    | some hole =>
      if hole.size = process.size then
        let filled : Block := { hole with free := false, tag := some process.name }
        Except.ok (true, { m1 with blocks := m1.blocks.set idx filled })
      else
        let used : Block :=
          { start := hole.start, size := process.size, free := false, tag := some process.name }
        let rest : Block :=
          { start := hole.start + process.size, size := hole.size - process.size,
            free := true, tag := none }
        Except.ok (true, { m1 with blocks := insertAt (idx + 1) rest (m1.blocks.set idx used) })

/-- The example configuration of the spec: free regions of sizes
[90, 60, 50, 100] at offsets [0, 90, 150, 200] (total 300). -/
def exampleMemory : Memory := Memory.init 300 (some [90, 60, 50, 100])


theorem sizesSum_nil : sizesSum [] = 0 := rfl

theorem sizesSum_cons (b : Block) (l : List Block) :
    sizesSum (b :: l) = b.size + sizesSum l := by
  simp [sizesSum]

theorem sizesSum_append (l1 l2 : List Block) :
    sizesSum (l1 ++ l2) = sizesSum l1 + sizesSum l2 := by
  simp [sizesSum]

theorem contiguousFrom_cons {pos : Int} {b : Block} {l : List Block} :
    contiguousFrom pos (b :: l) ↔ b.start = pos ∧ contiguousFrom (b.start + b.size) l :=
  Iff.rfl

theorem contiguousFrom_append : ∀ {pos : Int} {l1 l2 : List Block},
    contiguousFrom pos (l1 ++ l2) ↔
      contiguousFrom pos l1 ∧ contiguousFrom (pos + sizesSum l1) l2 := by
  intro pos l1
  induction l1 generalizing pos with
  | nil => intro l2; simp [contiguousFrom, sizesSum_nil]
  | cons b t ih =>
    intro l2
    constructor
    · rintro ⟨hs, hc⟩
      rcases ih.mp hc with ⟨h1, h2⟩
      refine ⟨⟨hs, h1⟩, ?_⟩
      have he : pos + sizesSum (b :: t) = b.start + b.size + sizesSum t := by
        rw [sizesSum_cons]; omega
      rw [he]; exact h2
    · rintro ⟨⟨hs, h1⟩, h2⟩
      refine ⟨hs, ih.mpr ⟨h1, ?_⟩⟩
      have he : b.start + b.size + sizesSum t = pos + sizesSum (b :: t) := by
        rw [sizesSum_cons]; omega
      rw [he]; exact h2

theorem contiguousFrom_start_le : ∀ {pos : Int} {l : List Block},
    contiguousFrom pos l → (∀ b ∈ l, 0 < b.size) → ∀ b ∈ l, pos ≤ b.start := by
  intro pos l
  induction l generalizing pos with
  | nil => intro _ _ b hb; cases hb
  | cons c t ih =>
    rintro ⟨hs, hc⟩ hpos b hb
    rcases List.mem_cons.mp hb with rfl | hb
    · omega
    · have := ih hc (fun x hx => hpos x (List.mem_cons_of_mem _ hx)) b hb
      have hcs : 0 < c.size := hpos c (List.mem_cons_self _ _)
      omega

theorem contiguousFrom_pairwise : ∀ {pos : Int} {l : List Block},
    contiguousFrom pos l → (∀ b ∈ l, 0 < b.size) →
    l.Pairwise (fun a b => a.start < b.start) := by
  intro pos l
  induction l generalizing pos with
  | nil => intro _ _; exact List.Pairwise.nil
  | cons c t ih =>
    rintro ⟨hs, hc⟩ hpos
    refine List.Pairwise.cons ?_ (ih hc (fun x hx => hpos x (List.mem_cons_of_mem _ hx)))
    intro b hb
    have h1 := contiguousFrom_start_le hc (fun x hx => hpos x (List.mem_cons_of_mem _ hx)) b hb
    have hcs : 0 < c.size := hpos c (List.mem_cons_self _ _)
    omega

theorem sortByStart_eq_self {l : List Block}
    (h : l.Pairwise (fun a b => a.start ≤ b.start)) : sortByStart l = l :=
  List.Sorted.insertionSort_eq h

theorem WF.pairwise_lt {m : Memory} (h : WF m) :
    m.blocks.Pairwise (fun a b => a.start < b.start) :=
  contiguousFrom_pairwise h.1 h.2.1

theorem WF.sortByStart_eq {m : Memory} (h : WF m) : sortByStart m.blocks = m.blocks :=
  sortByStart_eq_self (h.pairwise_lt.imp (fun hab => le_of_lt hab))

theorem mergeRun_contiguous : ∀ {pos : Int} {l : List Block},
    contiguousFrom pos l → contiguousFrom pos (mergeRun l) := by
  intro pos l
  induction l using mergeRun.induct generalizing pos with
  | case1 => intro h; simpa [mergeRun] using h
  | case2 b => intro h; simpa [mergeRun] using h
  | case3 a b rest hcond ih =>
    rintro ⟨hs, hb, hc⟩
    rw [mergeRun, if_pos hcond]
    exact ih ⟨hs, by
      have he : a.start + (a.size + b.size) = b.start + b.size := by
        have := hcond.2.2; unfold Block.endAddr at this; omega
      simpa [he] using hc⟩
  | case4 a b rest hcond ih =>
    rintro ⟨hs, hc⟩
    rw [mergeRun, if_neg hcond]
    exact ⟨hs, ih hc⟩

theorem mergeRun_sizesSum : ∀ {l : List Block}, sizesSum (mergeRun l) = sizesSum l := by
  intro l
  induction l using mergeRun.induct with
  | case1 => simp [mergeRun]
  | case2 b => simp [mergeRun]
  | case3 a b rest hcond ih =>
    rw [mergeRun, if_pos hcond, ih]
    simp [sizesSum_cons]; ring
  | case4 a b rest hcond ih =>
    rw [mergeRun, if_neg hcond]
    simp [sizesSum_cons, ih]

theorem mergeRun_pos : ∀ {l : List Block},
    (∀ b ∈ l, 0 < b.size) → ∀ b ∈ mergeRun l, 0 < b.size := by
  intro l
  induction l using mergeRun.induct with
  | case1 => intro h; simp [mergeRun]
  | case2 b => intro h; simpa [mergeRun] using h
  | case3 a b rest hcond ih =>
    intro h c hc
    rw [mergeRun, if_pos hcond] at hc
    refine ih ?_ c hc
    intro x hx
    rcases List.mem_cons.mp hx with rfl | hx
    · have ha := h a (List.mem_cons_self _ _)
      have hb := h b (List.mem_cons_of_mem _ (List.mem_cons_self _ _))
      show 0 < a.size + b.size
      omega
    · exact h x (List.mem_cons_of_mem _ (List.mem_cons_of_mem _ hx))
  | case4 a b rest hcond ih =>
    intro h c hc
    rw [mergeRun, if_neg hcond] at hc
    rcases List.mem_cons.mp hc with rfl | hc
    · exact h c (List.mem_cons_self _ _)
    · exact ih (fun x hx => h x (List.mem_cons_of_mem _ hx)) c hc

theorem mergeRun_head (a : Block) (t : List Block) :
    ∃ c t', mergeRun (a :: t) = c :: t' ∧ c.free = a.free ∧ c.start = a.start := by
  match t with
  | [] => rw [mergeRun]; exact ⟨a, [], rfl, rfl, rfl⟩
  | b :: rest =>
    by_cases hcond : a.free = true ∧ b.free = true ∧ a.endAddr = b.start
    · rw [mergeRun, if_pos hcond]
      have ih := mergeRun_head ({ a with size := a.size + b.size }) rest
      simpa using ih
    · rw [mergeRun, if_neg hcond]
      exact ⟨a, _, rfl, rfl, rfl⟩
termination_by t.length

theorem mergeRun_noAdjacentFree : ∀ {pos : Int} {l : List Block},
    contiguousFrom pos l → noAdjacentFree (mergeRun l) := by
  intro pos l
  induction l using mergeRun.induct generalizing pos with
  | case1 => intro _; simp [mergeRun, noAdjacentFree]
  | case2 b => intro _; simp [mergeRun, noAdjacentFree]
  | case3 a b rest hcond ih =>
    rintro ⟨hs, hb, hc⟩
    rw [mergeRun, if_pos hcond]
    exact ih ⟨rfl, by
      have he : a.start + (a.size + b.size) = b.start + b.size := by
        have := hcond.2.2; unfold Block.endAddr at this; omega
      simpa [he] using hc⟩
  | case4 a b rest hcond ih =>
    rintro ⟨hs, hc⟩
    rw [mergeRun, if_neg hcond]
    rcases mergeRun_head b rest with ⟨c, t', heq, hfree, _⟩
    rw [heq]
    refine ⟨?_, by rw [← heq]; exact ih hc⟩
    rintro ⟨haf, hcf⟩
    have hbf : b.free = true := by rw [← hfree]; exact hcf
    have hadj : a.endAddr = b.start := by
      unfold Block.endAddr
      have := hc.1
      omega
    exact hcond ⟨haf, hbf, hadj⟩

theorem getElem?_decomp : ∀ {l : List Block} {i : Nat} {b : Block},
    l[i]? = some b → l = l.take i ++ b :: l.drop (i + 1) := by
  intro l
  induction l with
  | nil => intro i b h; simp at h
  | cons c t ih =>
    intro i b h
    cases i with
    | zero =>
      simp at h
      subst h
      simp
    | succ n =>
      simp at h
      have := ih h
      simpa [List.take_succ_cons, List.drop_succ_cons] using congrArg (c :: ·) this

theorem set_insertAt_split : ∀ {l : List Block} {i : Nat} {hole : Block} (u r : Block),
    l[i]? = some hole →
    insertAt (i + 1) r (l.set i u) = l.take i ++ u :: r :: l.drop (i + 1) := by
  intro l
  induction l with
  | nil => intro i hole u r h; simp at h
  | cons c t ih =>
    intro i hole u r h
    cases i with
    | zero => simp [insertAt, List.set]
    | succ n =>
      simp only [List.getElem?_cons_succ] at h
      simp only [List.set_cons_succ, insertAt, List.take_succ_cons, List.drop_succ_cons,
        List.cons_append]
      exact congrArg (c :: ·) (ih u r h)

theorem contiguousFrom_set_same {pos : Int} {l : List Block} {i : Nat} {hole u : Block}
    (hc : contiguousFrom pos l) (hi : l[i]? = some hole)
    (hstart : u.start = hole.start) (hsize : u.size = hole.size) :
    contiguousFrom pos (l.set i u) := by
  have hd := getElem?_decomp hi
  have hlen : i < l.length := (List.getElem?_eq_some_iff.mp hi).choose
  rw [List.set_eq_take_append_cons_drop, if_pos hlen]
  rw [hd] at hc
  rcases contiguousFrom_append.mp hc with ⟨h1, h2⟩
  refine contiguousFrom_append.mpr ⟨h1, ?_⟩
  rcases h2 with ⟨hs, hc2⟩
  exact ⟨by omega, by rw [hstart, hsize]; exact hc2⟩

theorem sizesSum_set_same {l : List Block} {i : Nat} {hole u : Block}
    (hi : l[i]? = some hole) (hsize : u.size = hole.size) :
    sizesSum (l.set i u) = sizesSum l := by
  have hd := getElem?_decomp hi
  have hlen : i < l.length := (List.getElem?_eq_some_iff.mp hi).choose
  rw [List.set_eq_take_append_cons_drop, if_pos hlen]
  conv_rhs => rw [hd]
  simp [sizesSum_append, sizesSum_cons, hsize]

theorem mem_set_same {l : List Block} {i : Nat} {u : Block} :
    ∀ b ∈ l.set i u, b = u ∨ b ∈ l := by
  intro b hb
  rcases List.mem_or_eq_of_mem_set hb with h | h
  · exact Or.inr h
  · exact Or.inl h

theorem contiguousFrom_split {pos : Int} {l : List Block} {i : Nat} {hole u r : Block}
    (hc : contiguousFrom pos l) (hi : l[i]? = some hole)
    (hus : u.start = hole.start) (hrs : r.start = hole.start + u.size)
    (hsz : u.size + r.size = hole.size) :
    contiguousFrom pos (l.take i ++ u :: r :: l.drop (i + 1)) := by
  have hd := getElem?_decomp hi
  rw [hd] at hc
  rcases contiguousFrom_append.mp hc with ⟨h1, hs, hc2⟩
  refine contiguousFrom_append.mpr ⟨h1, ?_⟩
  refine ⟨by omega, by omega, ?_⟩
  have he : r.start + r.size = hole.start + hole.size := by omega
  rw [he]
  exact hc2

theorem sizesSum_split {l : List Block} {i : Nat} {hole u r : Block}
    (hi : l[i]? = some hole) (hsz : u.size + r.size = hole.size) :
    sizesSum (l.take i ++ u :: r :: l.drop (i + 1)) = sizesSum l := by
  have hd := getElem?_decomp hi
  conv_rhs => rw [hd]
  simp [sizesSum_append, sizesSum_cons]
  omega

theorem mem_split {l : List Block} {i : Nat} {u r : Block} :
    ∀ b ∈ l.take i ++ u :: r :: l.drop (i + 1), b = u ∨ b = r ∨ b ∈ l := by
  intro b hb
  rcases List.mem_append.mp hb with h | h
  · exact Or.inr (Or.inr (List.mem_of_mem_take h))
  · rcases List.mem_cons.mp h with rfl | h
    · exact Or.inl rfl
    · rcases List.mem_cons.mp h with rfl | h
      · exact Or.inr (Or.inl rfl)
      · exact Or.inr (Or.inr (List.mem_of_mem_drop h))

theorem findFirstFrom_some {need : Int} : ∀ {l : List Block} {i j : Nat},
    findFirstFrom need i l = some j →
    i ≤ j ∧ ∃ b, l[j - i]? = some b ∧ fits need b ∧
      ∀ k, k < j - i → ∀ c, l[k]? = some c → ¬ fits need c := by
  intro l
  induction l with
  | nil => intro i j h; simp [findFirstFrom] at h
  | cons b rest ih =>
    intro i j h
    rw [findFirstFrom] at h
    by_cases hq : b.free = true ∧ need ≤ b.size
    · rw [if_pos hq] at h
      cases h
      refine ⟨le_refl _, b, ?_, hq, ?_⟩
      · simp
      · intro k hk; omega
    · rw [if_neg hq] at h
      rcases ih h with ⟨hij, c, hc, hfit, hmin⟩
      refine ⟨by omega, c, ?_, hfit, ?_⟩
      · have : j - i = (j - (i + 1)) + 1 := by omega
        rw [this]
        simpa using hc
      · intro k hk d hd
        cases k with
        | zero =>
          simp at hd
          subst hd
          exact hq
        | succ k' =>
          simp at hd
          refine hmin k' (by omega) d hd

theorem findFirstFrom_none {need : Int} : ∀ {l : List Block} {i : Nat},
    findFirstFrom need i l = none ↔ ∀ (k : Nat) (c : Block), l[k]? = some c → ¬ fits need c := by
  intro l
  induction l with
  | nil => intro i; simp [findFirstFrom]
  | cons b rest ih =>
    intro i
    rw [findFirstFrom]
    by_cases hq : b.free = true ∧ need ≤ b.size
    · rw [if_pos hq]
      constructor
      · intro h; simp at h
      · intro h
        exact ((h 0 b (by simp)) hq).elim
    · rw [if_neg hq]
      rw [ih]
      constructor
      · intro h k c hkc
        cases k with
        | zero => simp at hkc; subst hkc; exact hq
        | succ k' => simp at hkc; exact h k' c hkc
      · intro h k c hkc
        exact h (k + 1) c (by simpa using hkc)

theorem find_first_fit_some {m : Memory} {need : Int} {j : Nat}
    (h : m._find_first_fit need = some j) :
    ∃ b, m.blocks[j]? = some b ∧ fits need b ∧
      ∀ k, k < j → ∀ c, m.blocks[k]? = some c → ¬ fits need c := by
  rcases findFirstFrom_some h with ⟨_, b, hb, hfit, hmin⟩
  simp only [Nat.sub_zero] at hb hmin
  exact ⟨b, hb, hfit, hmin⟩

theorem find_first_fit_none {m : Memory} {need : Int} :
    m._find_first_fit need = none ↔
      ∀ (k : Nat) (c : Block), m.blocks[k]? = some c → ¬ fits need c :=
  findFirstFrom_none

theorem candidatesFrom_mem {need : Int} : ∀ {l : List Block} {i : Nat} {p : Nat × Int},
    p ∈ candidatesFrom need i l ↔
      ∃ k b, l[k]? = some b ∧ fits need b ∧ p = (i + k, b.size - need) := by
  intro l
  induction l with
  | nil => intro i p; simp [candidatesFrom]
  | cons b rest ih =>
    intro i p
    rw [candidatesFrom]
    by_cases hq : b.free = true ∧ need ≤ b.size
    · rw [if_pos hq]
      constructor
      · intro hp
        rcases List.mem_cons.mp hp with rfl | hp
        · exact ⟨0, b, by simp, hq, by simp⟩
        · rcases ih.mp hp with ⟨k, c, hc, hfit, rfl⟩
          exact ⟨k + 1, c, by simpa using hc, hfit, by simp; omega⟩
      · rintro ⟨k, c, hc, hfit, rfl⟩
        cases k with
        | zero =>
          simp at hc; subst hc
          simp
        | succ k' =>
          simp at hc
          refine List.mem_cons_of_mem _ (ih.mpr ⟨k', c, hc, hfit, ?_⟩)
          simp; omega
    · rw [if_neg hq]
      rw [ih]
      constructor
      · rintro ⟨k, c, hc, hfit, rfl⟩
        exact ⟨k + 1, c, by simpa using hc, hfit, by simp; omega⟩
      · rintro ⟨k, c, hc, hfit, rfl⟩
        cases k with
        | zero => simp at hc; subst hc; exact absurd hfit hq
        | succ k' =>
          simp at hc
          exact ⟨k', c, hc, hfit, by simp; omega⟩

theorem candidatesFrom_lb {need : Int} : ∀ {l : List Block} {i : Nat} {p : Nat × Int},
    p ∈ candidatesFrom need i l → i ≤ p.1 := by
  intro l i p hp
  rcases candidatesFrom_mem.mp hp with ⟨k, b, _, _, rfl⟩
  simp

theorem candidatesFrom_pairwise {need : Int} : ∀ {l : List Block} {i : Nat},
    (candidatesFrom need i l).Pairwise (fun a b => a.1 < b.1) := by
  intro l
  induction l with
  | nil => intro i; simp [candidatesFrom]
  | cons b rest ih =>
    intro i
    rw [candidatesFrom]
    by_cases hq : b.free = true ∧ need ≤ b.size
    · rw [if_pos hq]
      refine List.Pairwise.cons ?_ ih
      intro p hp
      have := candidatesFrom_lb hp
      simp
      omega
    · rw [if_neg hq]; exact ih

theorem pyMinBySlack_fold : ∀ (xs : List (Nat × Int)) (x : Nat × Int),
    (pyMinBySlack x xs = x ∨ pyMinBySlack x xs ∈ xs) ∧
    (pyMinBySlack x xs).2 ≤ x.2 ∧
    (∀ y ∈ xs, (pyMinBySlack x xs).2 ≤ y.2) ∧
    ((pyMinBySlack x xs).2 = x.2 → pyMinBySlack x xs = x) := by
  intro xs
  induction xs with
  | nil => intro x; exact ⟨Or.inl rfl, le_refl _, by simp, fun _ => rfl⟩
  | cons z t ih =>
    intro x
    have hstep : pyMinBySlack x (z :: t) = pyMinBySlack (if z.2 < x.2 then z else x) t := by
      simp [pyMinBySlack, List.foldl_cons]
    by_cases hz : z.2 < x.2
    · rcases ih z with ⟨hmem, hle, hall, heq⟩
      rw [hstep, if_pos hz]
      refine ⟨?_, by omega, ?_, by intro h; omega⟩
      · rcases hmem with h | h
        · exact Or.inr (by rw [h]; exact List.mem_cons_self _ _)
        · exact Or.inr (List.mem_cons_of_mem _ h)
      · intro y hy
        rcases List.mem_cons.mp hy with rfl | hy
        · exact hle
        · exact hall y hy
    · rcases ih x with ⟨hmem, hle, hall, heq⟩
      rw [hstep, if_neg hz]
      refine ⟨?_, hle, ?_, heq⟩
      · rcases hmem with h | h
        · exact Or.inl h
        · exact Or.inr (List.mem_cons_of_mem _ h)
      · intro y hy
        rcases List.mem_cons.mp hy with rfl | hy
        · omega
        · exact hall y hy

theorem pyMinBySlack_first : ∀ (xs : List (Nat × Int)) (x : Nat × Int),
    (x :: xs).Pairwise (fun a b => a.1 < b.1) →
    ∀ y, (y = x ∨ y ∈ xs) → y.2 = (pyMinBySlack x xs).2 →
      (pyMinBySlack x xs).1 ≤ y.1 := by
  intro xs
  induction xs with
  | nil =>
    intro x _ y hy _
    rcases hy with rfl | hy
    · exact le_refl _
    · cases hy
  | cons z t ih =>
    intro x hpw y hy hy2
    have hstep : pyMinBySlack x (z :: t) = pyMinBySlack (if z.2 < x.2 then z else x) t := by
      simp [pyMinBySlack, List.foldl_cons]
    rcases List.pairwise_cons.mp hpw with ⟨hxlt, hpw'⟩
    rcases List.pairwise_cons.mp hpw' with ⟨hzlt, hpwt⟩
    by_cases hz : z.2 < x.2
    · rw [hstep, if_pos hz] at hy2 ⊢
      rcases hy with rfl | hy
      · -- the running minimum is at most z.2 < y.2, so the tie hypothesis is impossible
        have hle := (pyMinBySlack_fold t z).2.1
        omega
      · exact ih z hpw' y (List.mem_cons.mp hy) hy2
    · rw [hstep, if_neg hz] at hy2 ⊢
      have hpwx : (x :: t).Pairwise (fun a b => a.1 < b.1) :=
        List.pairwise_cons.mpr ⟨fun a ha => hxlt a (List.mem_cons_of_mem _ ha), hpwt⟩
      rcases hy with rfl | hy
      · exact ih _ hpwx y (Or.inl rfl) hy2
      · rcases List.mem_cons.mp hy with rfl | hyt
        · -- a tie at the skipped head forces the running minimum to be x itself
          rcases pyMinBySlack_fold t x with ⟨_, hle, _, heqx⟩
          have hPx : (pyMinBySlack x t).2 = x.2 := by omega
          rw [heqx hPx]
          exact le_of_lt (hxlt y (List.mem_cons_self _ _))
        · exact ih x hpwx y (Or.inr hyt) hy2

theorem pyMaxBySlack_fold : ∀ (xs : List (Nat × Int)) (x : Nat × Int),
    (pyMaxBySlack x xs = x ∨ pyMaxBySlack x xs ∈ xs) ∧
    x.2 ≤ (pyMaxBySlack x xs).2 ∧
    (∀ y ∈ xs, y.2 ≤ (pyMaxBySlack x xs).2) ∧
    ((pyMaxBySlack x xs).2 = x.2 → pyMaxBySlack x xs = x) := by
  intro xs
  induction xs with
  | nil => intro x; exact ⟨Or.inl rfl, le_refl _, by simp, fun _ => rfl⟩
  | cons z t ih =>
    intro x
    have hstep : pyMaxBySlack x (z :: t) = pyMaxBySlack (if x.2 < z.2 then z else x) t := by
      simp [pyMaxBySlack, List.foldl_cons]
    by_cases hz : x.2 < z.2
    · rcases ih z with ⟨hmem, hle, hall, heq⟩
      rw [hstep, if_pos hz]
      refine ⟨?_, by omega, ?_, by intro h; omega⟩
      · rcases hmem with h | h
        · exact Or.inr (by rw [h]; exact List.mem_cons_self _ _)
        · exact Or.inr (List.mem_cons_of_mem _ h)
      · intro y hy
        rcases List.mem_cons.mp hy with rfl | hy
        · exact hle
        · exact hall y hy
    · rcases ih x with ⟨hmem, hle, hall, heq⟩
      rw [hstep, if_neg hz]
      refine ⟨?_, hle, ?_, heq⟩
      · rcases hmem with h | h
        · exact Or.inl h
        · exact Or.inr (List.mem_cons_of_mem _ h)
      · intro y hy
        rcases List.mem_cons.mp hy with rfl | hy
        · omega
        · exact hall y hy

theorem pyMaxBySlack_first : ∀ (xs : List (Nat × Int)) (x : Nat × Int),
    (x :: xs).Pairwise (fun a b => a.1 < b.1) →
    ∀ y, (y = x ∨ y ∈ xs) → y.2 = (pyMaxBySlack x xs).2 →
      (pyMaxBySlack x xs).1 ≤ y.1 := by
  intro xs
  induction xs with
  | nil =>
    intro x _ y hy _
    rcases hy with rfl | hy
    · exact le_refl _
    · cases hy
  | cons z t ih =>
    intro x hpw y hy hy2
    have hstep : pyMaxBySlack x (z :: t) = pyMaxBySlack (if x.2 < z.2 then z else x) t := by
      simp [pyMaxBySlack, List.foldl_cons]
    rcases List.pairwise_cons.mp hpw with ⟨hxlt, hpw'⟩
    rcases List.pairwise_cons.mp hpw' with ⟨hzlt, hpwt⟩
    by_cases hz : x.2 < z.2
    · rw [hstep, if_pos hz] at hy2 ⊢
      rcases hy with rfl | hy
      · have hle := (pyMaxBySlack_fold t z).2.1
        omega
      · exact ih z hpw' y (List.mem_cons.mp hy) hy2
    · rw [hstep, if_neg hz] at hy2 ⊢
      have hpwx : (x :: t).Pairwise (fun a b => a.1 < b.1) :=
        List.pairwise_cons.mpr ⟨fun a ha => hxlt a (List.mem_cons_of_mem _ ha), hpwt⟩
      rcases hy with rfl | hy
      · exact ih _ hpwx y (Or.inl rfl) hy2
      · rcases List.mem_cons.mp hy with rfl | hyt
        · rcases pyMaxBySlack_fold t x with ⟨_, hle, _, heqx⟩
          have hPx : (pyMaxBySlack x t).2 = x.2 := by omega
          rw [heqx hPx]
          exact le_of_lt (hxlt y (List.mem_cons_self _ _))
        · exact ih x hpwx y (Or.inr hyt) hy2

theorem candidatesFrom_nil {need : Int} {l : List Block} {i : Nat} :
    candidatesFrom need i l = [] ↔
      ∀ (k : Nat) (c : Block), l[k]? = some c → ¬ fits need c := by
  rw [List.eq_nil_iff_forall_not_mem]
  constructor
  · intro h k c hc hf
    exact h (i + k, c.size - need) (candidatesFrom_mem.mpr ⟨k, c, hc, hf, rfl⟩)
  · intro h p hp
    rcases candidatesFrom_mem.mp hp with ⟨k, c, hc, hf, rfl⟩
    exact h k c hc hf

theorem find_best_fit_some {m : Memory} {need : Int} {j : Nat}
    (h : m._find_best_fit need = some j) :
    ∃ b, m.blocks[j]? = some b ∧ fits need b ∧
      ∀ (k : Nat) (c : Block), m.blocks[k]? = some c → fits need c →
        b.size - need ≤ c.size - need ∧ (c.size - need = b.size - need → j ≤ k) := by
  unfold Memory._find_best_fit at h
  cases hcand : candidatesFrom need 0 m.blocks with
  | nil => rw [hcand] at h; cases h
  | cons x xs =>
    rw [hcand] at h
    cases h
    rcases pyMinBySlack_fold xs x with ⟨hmem, hle, hall, _⟩
    have hmem' : pyMinBySlack x xs ∈ candidatesFrom need 0 m.blocks := by
      rw [hcand]
      rcases hmem with h' | h'
      · rw [h']; exact List.mem_cons_self _ _
      · exact List.mem_cons_of_mem _ h'
    rcases candidatesFrom_mem.mp hmem' with ⟨k, b, hb, hf, hP⟩
    have hj : (pyMinBySlack x xs).1 = k := by rw [hP]; simp
    have hP2 : (pyMinBySlack x xs).2 = b.size - need := by rw [hP]
    refine ⟨b, by rw [hj]; exact hb, hf, ?_⟩
    intro k' c hc hfc
    have hyc : (0 + k', c.size - need) ∈ candidatesFrom need 0 m.blocks :=
      candidatesFrom_mem.mpr ⟨k', c, hc, hfc, rfl⟩
    rw [hcand] at hyc
    have hy' : (0 + k', c.size - need) = x ∨ (0 + k', c.size - need) ∈ xs :=
      List.mem_cons.mp hyc
    have hmin : (pyMinBySlack x xs).2 ≤ c.size - need := by
      rcases hy' with h' | h'
      · have h2 : x.2 = c.size - need := by rw [← h']
        rw [h2] at hle; exact hle
      · exact hall _ h'
    constructor
    · omega
    · intro hty
      have hpw : (x :: xs).Pairwise (fun a b => a.1 < b.1) := by
        rw [← hcand]; exact candidatesFrom_pairwise
      have := pyMinBySlack_first xs x hpw (0 + k', c.size - need) hy' (by simp; omega)
      simp at this
      omega

theorem find_best_fit_none {m : Memory} {need : Int} :
    m._find_best_fit need = none ↔
      ∀ (k : Nat) (c : Block), m.blocks[k]? = some c → ¬ fits need c := by
  unfold Memory._find_best_fit
  cases hcand : candidatesFrom need 0 m.blocks with
  | nil =>
    constructor
    · intro _; exact candidatesFrom_nil.mp hcand
    · intro _; rfl
  | cons x xs =>
    constructor
    · intro h; cases h
    · intro h
      rw [candidatesFrom_nil.mpr h] at hcand
      simp at hcand

theorem find_worst_fit_some {m : Memory} {need : Int} {j : Nat}
    (h : m._find_worst_fit need = some j) :
    ∃ b, m.blocks[j]? = some b ∧ fits need b ∧
      ∀ (k : Nat) (c : Block), m.blocks[k]? = some c → fits need c →
        c.size - need ≤ b.size - need ∧ (c.size - need = b.size - need → j ≤ k) := by
  unfold Memory._find_worst_fit at h
  cases hcand : candidatesFrom need 0 m.blocks with
  | nil => rw [hcand] at h; cases h
  | cons x xs =>
    rw [hcand] at h
    cases h
    rcases pyMaxBySlack_fold xs x with ⟨hmem, hle, hall, _⟩
    have hmem' : pyMaxBySlack x xs ∈ candidatesFrom need 0 m.blocks := by
      rw [hcand]
      rcases hmem with h' | h'
      · rw [h']; exact List.mem_cons_self _ _
      · exact List.mem_cons_of_mem _ h'
    rcases candidatesFrom_mem.mp hmem' with ⟨k, b, hb, hf, hP⟩
    have hj : (pyMaxBySlack x xs).1 = k := by rw [hP]; simp
    have hP2 : (pyMaxBySlack x xs).2 = b.size - need := by rw [hP]
    refine ⟨b, by rw [hj]; exact hb, hf, ?_⟩
    intro k' c hc hfc
    have hyc : (0 + k', c.size - need) ∈ candidatesFrom need 0 m.blocks :=
      candidatesFrom_mem.mpr ⟨k', c, hc, hfc, rfl⟩
    rw [hcand] at hyc
    have hy' : (0 + k', c.size - need) = x ∨ (0 + k', c.size - need) ∈ xs :=
      List.mem_cons.mp hyc
    have hmax : c.size - need ≤ (pyMaxBySlack x xs).2 := by
      rcases hy' with h' | h'
      · have h2 : x.2 = c.size - need := by rw [← h']
        rw [h2] at hle; exact hle
      · exact hall _ h'
    constructor
    · omega
    · intro hty
      have hpw : (x :: xs).Pairwise (fun a b => a.1 < b.1) := by
        rw [← hcand]; exact candidatesFrom_pairwise
      have := pyMaxBySlack_first xs x hpw (0 + k', c.size - need) hy' (by simp; omega)
      simp at this
      omega

theorem find_worst_fit_none {m : Memory} {need : Int} :
    m._find_worst_fit need = none ↔
      ∀ (k : Nat) (c : Block), m.blocks[k]? = some c → ¬ fits need c := by
  unfold Memory._find_worst_fit
  cases hcand : candidatesFrom need 0 m.blocks with
  | nil =>
    constructor
    · intro _; exact candidatesFrom_nil.mp hcand
    · intro _; rfl
  | cons x xs =>
    constructor
    · intro h; cases h
    · intro h
      rw [candidatesFrom_nil.mpr h] at hcand
      simp at hcand

theorem nextFitProbe_true {blocks : List Block} {need : Int} {i : Nat} :
    nextFitProbe blocks need i = true ↔ ∃ b, blocks[i]? = some b ∧ fits need b := by
  unfold nextFitProbe
  cases h : blocks[i]? with
  | none => simp
  | some b => simp [fits]

theorem exists_circular_off {n : Nat} (hn : 0 < n) {j : Nat} (hj : j < n) (c : Nat) :
    ∃ off, off < n ∧ (c + off) % n = j := by
  have hdm := Nat.div_add_mod c n
  have hc : c % n < n := Nat.mod_lt _ hn
  by_cases h : c % n ≤ j
  · refine ⟨j - c % n, by omega, ?_⟩
    have he : c + (j - c % n) = n * (c / n) + j := by omega
    rw [he, Nat.mul_add_mod]
    exact Nat.mod_eq_of_lt hj
  · refine ⟨j + n - c % n, by omega, ?_⟩
    have he : c + (j + n - c % n) = n * (c / n + 1) + j := by
      have hr : n * (c / n + 1) = n * (c / n) + n := by ring
      omega
    rw [he, Nat.mul_add_mod]
    exact Nat.mod_eq_of_lt hj

theorem find_next_fit_some {m : Memory} {need : Int} {j : Nat}
    (h : m._find_next_fit need = some j) :
    j < m.blocks.length ∧ ∃ b, m.blocks[j]? = some b ∧ fits need b := by
  unfold Memory._find_next_fit at h
  have hp := List.find?_some h
  have hmem := List.mem_of_find?_eq_some h
  rcases nextFitProbe_true.mp hp with ⟨b, hb, hf⟩
  refine ⟨?_, b, hb, hf⟩
  exact (List.getElem?_eq_some_iff.mp hb).choose

theorem find_next_fit_none {m : Memory} {need : Int} (hne : m.blocks ≠ []) :
    m._find_next_fit need = none ↔
      ∀ (k : Nat) (c : Block), m.blocks[k]? = some c → ¬ fits need c := by
  unfold Memory._find_next_fit
  rw [List.find?_eq_none]
  have hn : 0 < m.blocks.length := List.length_pos.mpr hne
  constructor
  · intro h k c hkc hf
    have hk : k < m.blocks.length := (List.getElem?_eq_some_iff.mp hkc).choose
    rcases exists_circular_off hn hk m.next_fit_index with ⟨off, hoff, hoffeq⟩
    refine h k ?_ (nextFitProbe_true.mpr ⟨c, hkc, hf⟩)
    rw [← hoffeq]
    exact List.mem_map.mpr ⟨off, List.mem_range.mpr hoff, rfl⟩
  · intro h i hi hp
    rcases nextFitProbe_true.mp hp with ⟨b, hb, hf⟩
    exact h i b hb hf

theorem layoutLoop_contiguous : ∀ (sizes : List Int) (pos : Int),
    contiguousFrom pos (layoutLoop pos sizes).1 := by
  intro sizes
  induction sizes with
  | nil => intro pos; exact trivial
  | cons sz rest ih =>
    intro pos
    exact ⟨rfl, ih (pos + sz)⟩

theorem layoutLoop_snd : ∀ (sizes : List Int) (pos : Int),
    (layoutLoop pos sizes).2 = pos + sizes.sum := by
  intro sizes
  induction sizes with
  | nil => intro pos; simp [layoutLoop]
  | cons sz rest ih =>
    intro pos
    rw [layoutLoop]
    simp only []
    rw [ih (pos + sz)]
    simp
    ring

theorem layoutLoop_map_size : ∀ (sizes : List Int) (pos : Int),
    (layoutLoop pos sizes).1.map Block.size = sizes := by
  intro sizes
  induction sizes with
  | nil => intro pos; rfl
  | cons sz rest ih =>
    intro pos
    rw [layoutLoop]
    simp only [List.map_cons]
    rw [ih (pos + sz)]

theorem layoutLoop_sizesSum (sizes : List Int) (pos : Int) :
    sizesSum (layoutLoop pos sizes).1 = sizes.sum := by
  unfold sizesSum
  rw [layoutLoop_map_size]

theorem sizesSum_filter_partition (p : Block → Bool) : ∀ (l : List Block),
    sizesSum (l.filter p) + sizesSum (l.filter (fun b => !(p b))) = sizesSum l := by
  intro l
  induction l with
  | nil => rfl
  | cons b t ih =>
    by_cases hb : p b = true
    · simp [List.filter_cons, hb, sizesSum_cons]
      omega
    · have hb' : p b = false := by simpa using hb
      simp [List.filter_cons, hb', sizesSum_cons]
      omega

theorem usedTotal_add_freeTotal (m : Memory) :
    usedTotal m + freeTotal m = sizesSum m.blocks := by
  unfold usedTotal freeTotal
  have h := sizesSum_filter_partition (fun b => !b.free) m.blocks
  simp only [Bool.not_not] at h
  exact h

theorem WF_init {total : Int} {sizes : List Int}
    (htot : 0 < total) (hpos : ∀ s ∈ sizes, 0 < s) (hsum : sizes.sum ≤ total) :
    WF (Memory.init total (some sizes)) := by
  simp only [Memory.init]
  by_cases hnil : sizes = []
  · rw [if_pos hnil]
    refine ⟨⟨rfl, trivial⟩, ?_, ?_⟩
    · intro b hb
      simp at hb
      rw [hb]
      exact htot
    · unfold sizesSum
      simp
  · rw [if_neg hnil]
    have hsnd := layoutLoop_snd sizes 0
    have hss := layoutLoop_sizesSum sizes 0
    have hmap := layoutLoop_map_size sizes 0
    have hposall : ∀ b ∈ (layoutLoop 0 sizes).1, 0 < b.size := by
      intro b hb
      have : b.size ∈ sizes := by
        rw [← hmap]
        exact List.mem_map_of_mem _ hb
      exact hpos _ this
    by_cases hlt : (layoutLoop 0 sizes).2 < total
    · rw [if_pos hlt]
      refine ⟨?_, ?_, ?_⟩
      · refine contiguousFrom_append.mpr ⟨layoutLoop_contiguous sizes 0, ?_⟩
        refine ⟨?_, trivial⟩
        show (layoutLoop 0 sizes).2 = 0 + sizesSum (layoutLoop 0 sizes).1
        omega
      · intro b hb
        rcases List.mem_append.mp hb with h | h
        · exact hposall b h
        · simp at h
          rw [h]
          simp only []
          omega
      · rw [sizesSum_append, hss]
        simp [sizesSum]
        omega
    · rw [if_neg hlt]
      refine ⟨layoutLoop_contiguous sizes 0, hposall, ?_⟩
      show sizesSum (layoutLoop 0 sizes).1 = total
      omega

theorem WF_coalesce {m : Memory} (h : WF m) : WF (m._coalesce) := by
  unfold Memory._coalesce
  rcases h with ⟨hc, hp, hs⟩
  have hsort : sortByStart m.blocks = m.blocks :=
    sortByStart_eq_self ((contiguousFrom_pairwise hc hp).imp (fun hab => le_of_lt hab))
  refine ⟨?_, ?_, ?_⟩
  · rw [hsort]
    exact mergeRun_contiguous hc
  · rw [hsort]
    exact mergeRun_pos hp
  · show sizesSum (mergeRun (sortByStart m.blocks)) = m.total
    rw [hsort, mergeRun_sizesSum]
    exact hs

theorem relayoutLoop_contiguous : ∀ (l : List Block) (cur : Int),
    contiguousFrom cur (relayoutLoop cur l).1 := by
  intro l
  induction l with
  | nil => intro cur; exact trivial
  | cons b t ih => intro cur; exact ⟨rfl, ih (cur + b.size)⟩

theorem relayoutLoop_map_size : ∀ (l : List Block) (cur : Int),
    (relayoutLoop cur l).1.map Block.size = l.map Block.size := by
  intro l
  induction l with
  | nil => intro cur; rfl
  | cons b t ih =>
    intro cur
    rw [relayoutLoop]
    simp only [List.map_cons]
    rw [ih (cur + b.size)]

theorem relayoutLoop_snd : ∀ (l : List Block) (cur : Int),
    (relayoutLoop cur l).2 = cur + sizesSum l := by
  intro l
  induction l with
  | nil => intro cur; simp [relayoutLoop, sizesSum]
  | cons b t ih =>
    intro cur
    rw [relayoutLoop]
    simp only []
    rw [ih (cur + b.size), sizesSum_cons]
    ring

theorem relayoutLoop_sizesSum (l : List Block) (cur : Int) :
    sizesSum (relayoutLoop cur l).1 = sizesSum l := by
  unfold sizesSum
  rw [relayoutLoop_map_size]

theorem relayoutLoop_not_free : ∀ (l : List Block) (cur : Int),
    ∀ b ∈ (relayoutLoop cur l).1, b.free = false := by
  intro l
  induction l with
  | nil => intro cur b hb; cases hb
  | cons c t ih =>
    intro cur b hb
    rcases List.mem_cons.mp hb with rfl | hb
    · rfl
    · exact ih (cur + c.size) b hb

theorem relayoutLoop_tag_size : ∀ (l : List Block) (cur : Int),
    (relayoutLoop cur l).1.map (fun b => (b.tag, b.size)) =
      l.map (fun b => (b.tag, b.size)) := by
  intro l
  induction l with
  | nil => intro cur; rfl
  | cons b t ih =>
    intro cur
    rw [relayoutLoop]
    simp only [List.map_cons]
    rw [ih (cur + b.size)]

theorem sizesSum_nonneg : ∀ {l : List Block}, (∀ b ∈ l, 0 < b.size) → 0 ≤ sizesSum l := by
  intro l
  induction l with
  | nil => intro _; simp [sizesSum]
  | cons c t ih =>
    intro h
    rw [sizesSum_cons]
    have hc := h c (List.mem_cons_self _ _)
    have ht := ih (fun b hb => h b (List.mem_cons_of_mem _ hb))
    omega

theorem sizesSum_filter_le {l : List Block} (hp : ∀ b ∈ l, 0 < b.size)
    (p : Block → Bool) : sizesSum (l.filter p) ≤ sizesSum l := by
  have h := sizesSum_filter_partition p l
  have h2 : 0 ≤ sizesSum (l.filter (fun b => !(p b))) :=
    sizesSum_nonneg (fun b hb => hp b (List.mem_of_mem_filter hb))
  omega

theorem sizesSum_singleton (b : Block) : sizesSum [b] = b.size := by
  simp [sizesSum]

theorem WF_compact {m : Memory} (h : WF m) : WF (m.compact) := by
  rcases h with ⟨hc, hp, hs⟩
  have hsort : sortByStart m.blocks = m.blocks :=
    sortByStart_eq_self ((contiguousFrom_pairwise hc hp).imp (fun hab => le_of_lt hab))
  have hgoal : m.compact =
      { total := m.total,
        blocks :=
          if (relayoutLoop 0 (m.blocks.filter (fun b => !b.free))).2 < m.total then
            (relayoutLoop 0 (m.blocks.filter (fun b => !b.free))).1 ++
              [{ start := (relayoutLoop 0 (m.blocks.filter (fun b => !b.free))).2,
                 size := m.total - (relayoutLoop 0 (m.blocks.filter (fun b => !b.free))).2,
                 free := true, tag := none }]
          else (relayoutLoop 0 (m.blocks.filter (fun b => !b.free))).1,
        next_fit_index := 0 } := by
    unfold Memory.compact
    rw [hsort]
  rw [hgoal]
  have hposf : ∀ b ∈ m.blocks.filter (fun b => !b.free), 0 < b.size :=
    fun b hb => hp b (List.mem_of_mem_filter hb)
  have hsnd := relayoutLoop_snd (m.blocks.filter (fun b => !b.free)) 0
  have hss := relayoutLoop_sizesSum (m.blocks.filter (fun b => !b.free)) 0
  have hfle : sizesSum (m.blocks.filter (fun b => !b.free)) ≤ m.total := by
    have := sizesSum_filter_le hp (fun b => !b.free)
    omega
  have hposr : ∀ b ∈ (relayoutLoop 0 (m.blocks.filter (fun b => !b.free))).1, 0 < b.size := by
    intro b hb
    have hmem : b.size ∈ (relayoutLoop 0 (m.blocks.filter (fun b => !b.free))).1.map Block.size :=
      List.mem_map_of_mem _ hb
    rw [relayoutLoop_map_size] at hmem
    rcases List.mem_map.mp hmem with ⟨c, hcmem, hcsz⟩
    have := hposf c hcmem
    omega
  by_cases hlt : (relayoutLoop 0 (m.blocks.filter (fun b => !b.free))).2 < m.total
  · rw [if_pos hlt]
    refine ⟨?_, ?_, ?_⟩
    · refine contiguousFrom_append.mpr
        ⟨relayoutLoop_contiguous (m.blocks.filter (fun b => !b.free)) 0, ?_⟩
      refine ⟨?_, trivial⟩
      show (relayoutLoop 0 (m.blocks.filter (fun b => !b.free))).2 =
        0 + sizesSum (relayoutLoop 0 (m.blocks.filter (fun b => !b.free))).1
      omega
    · intro b hb
      rcases List.mem_append.mp hb with hmem | hmem
      · exact hposr b hmem
      · simp at hmem
        rw [hmem]
        show 0 < m.total - (relayoutLoop 0 (m.blocks.filter (fun b => !b.free))).2
        omega
    · show sizesSum _ = m.total
      rw [sizesSum_append, hss, sizesSum_singleton]
      show sizesSum (m.blocks.filter (fun b => !b.free)) +
        (m.total - (relayoutLoop 0 (m.blocks.filter (fun b => !b.free))).2) = m.total
      omega
  · rw [if_neg hlt]
    refine ⟨relayoutLoop_contiguous _ 0, hposr, ?_⟩
    show sizesSum (relayoutLoop 0 (m.blocks.filter (fun b => !b.free))).1 = m.total
    omega

theorem contiguousFrom_map_preserve {f : Block → Block}
    (hf : ∀ b, (f b).start = b.start ∧ (f b).size = b.size) :
    ∀ {pos : Int} {l : List Block}, contiguousFrom pos l → contiguousFrom pos (l.map f) := by
  intro pos l
  induction l generalizing pos with
  | nil => intro _; exact trivial
  | cons b t ih =>
    rintro ⟨hs, hc⟩
    rcases hf b with ⟨h1, h2⟩
    refine ⟨by rw [h1, hs], ?_⟩
    rw [h1, h2]
    exact ih hc

theorem sizesSum_map_preserve {f : Block → Block}
    (hf : ∀ b, (f b).size = b.size) : ∀ (l : List Block), sizesSum (l.map f) = sizesSum l := by
  intro l
  induction l with
  | nil => rfl
  | cons b t ih =>
    simp only [List.map_cons, sizesSum_cons, ih, hf b]

theorem WF_deallocate {m : Memory} (h : WF m) (tag : String) :
    WF (m.deallocate tag).2 := by
  unfold Memory.deallocate
  by_cases hch : m.blocks.any (fun b => decide (b.free = false ∧ b.tag = some tag)) = true
  · rw [if_pos hch]
    refine WF_coalesce ?_
    rcases h with ⟨hc, hp, hs⟩
    have hf : ∀ b : Block,
        ((if b.free = false ∧ b.tag = some tag then
            { b with free := true, tag := none } else b) : Block).start = b.start ∧
        ((if b.free = false ∧ b.tag = some tag then
            { b with free := true, tag := none } else b) : Block).size = b.size := by
      intro b
      by_cases hb : b.free = false ∧ b.tag = some tag
      · rw [if_pos hb]; exact ⟨rfl, rfl⟩
      · rw [if_neg hb]; exact ⟨rfl, rfl⟩
    refine ⟨contiguousFrom_map_preserve hf hc, ?_, ?_⟩
    · intro b hb
      rcases List.mem_map.mp hb with ⟨c, hcmem, hcb⟩
      have := (hf c).2
      rw [hcb] at this
      have hcp := hp c hcmem
      omega
    · show sizesSum (m.blocks.map _) = m.total
      rw [sizesSum_map_preserve (fun b => (hf b).2)]
      exact hs
  · rw [if_neg hch]
    exact h

theorem allocate_eq_dispatch (m : Memory) (p : Process) (method : String) :
    m.allocate p method =
      (if pyLower method = "first" then allocFinish m p (m._find_first_fit p.size) false
       else if pyLower method = "best" then allocFinish m p (m._find_best_fit p.size) false
       else if pyLower method = "worst" then allocFinish m p (m._find_worst_fit p.size) false
       else if pyLower method = "next" then allocFinish m p (m._find_next_fit p.size) true
       else Except.error "method must be one of: first, best, worst, next") := by
  by_cases h1 : pyLower method = "first"
  · simp [Memory.allocate, allocFinish, h1]
    cases m._find_first_fit p.size with
    | none => rfl
    | some idx => rfl
  · by_cases h2 : pyLower method = "best"
    · simp [Memory.allocate, allocFinish, h1, h2]
      cases m._find_best_fit p.size with
      | none => rfl
      | some idx => rfl
    · by_cases h3 : pyLower method = "worst"
      · simp [Memory.allocate, allocFinish, h1, h2, h3]
        cases m._find_worst_fit p.size with
        | none => rfl
        | some idx => rfl
      · by_cases h4 : pyLower method = "next"
        · simp [Memory.allocate, allocFinish, h1, h2, h3, h4]
          cases m._find_next_fit p.size with
          | none => rfl
          | some idx => rfl
        · simp [Memory.allocate, h1, h2, h3, h4]

theorem allocFinish_ok_cases {m : Memory} {p : Process} {found : Option Nat} {isNext : Bool}
    {r : Bool} {m' : Memory}
    (hfound : ∀ i, found = some i → ∃ hole, m.blocks[i]? = some hole ∧ fits p.size hole)
    (ha : allocFinish m p found isNext = Except.ok (r, m')) :
    (r = false ∧ m' = m ∧ found = none) ∨
    (r = true ∧ ∃ idx hole, found = some idx ∧ m.blocks[idx]? = some hole ∧
      fits p.size hole ∧ m'.total = m.total ∧
      m'.next_fit_index = (if isNext then idx else m.next_fit_index) ∧
      ((hole.size = p.size ∧
          m'.blocks = m.blocks.set idx ({ hole with free := false, tag := some p.name })) ∨
       (hole.size ≠ p.size ∧
          m'.blocks = m.blocks.take idx ++
            ({ start := hole.start, size := p.size, free := false,
               tag := some p.name } : Block) ::
            ({ start := hole.start + p.size, size := hole.size - p.size, free := true,
               tag := none } : Block) :: m.blocks.drop (idx + 1)))) := by
  cases found with
  | none =>
    simp only [allocFinish, Except.ok.injEq, Prod.mk.injEq] at ha
    rcases ha with ⟨hr, hm⟩
    left
    exact ⟨hr.symm, hm.symm, rfl⟩
  | some idx =>
    rcases hfound idx rfl with ⟨hole, hhole, hfit⟩
    right
    cases isNext with
    | false =>
      simp only [allocFinish, Bool.false_eq_true, if_false, hhole] at ha
      by_cases hsz : hole.size = p.size
      · rw [if_pos hsz] at ha
        injection ha with h1
        injection h1 with hr hm
        subst hr
        subst hm
        refine ⟨rfl, idx, hole, rfl, hhole, hfit, rfl, by simp, Or.inl ⟨hsz, rfl⟩⟩
      · rw [if_neg hsz] at ha
        injection ha with h1
        injection h1 with hr hm
        subst hr
        subst hm
        refine ⟨rfl, idx, hole, rfl, hhole, hfit, rfl, by simp, Or.inr ⟨hsz, ?_⟩⟩
        show insertAt (idx + 1) _ (m.blocks.set idx _) = _
        rw [set_insertAt_split _ _ hhole]
    | true =>
      simp only [allocFinish, if_true, hhole] at ha
      by_cases hsz : hole.size = p.size
      · rw [if_pos hsz] at ha
        injection ha with h1
        injection h1 with hr hm
        subst hr
        subst hm
        refine ⟨rfl, idx, hole, rfl, hhole, hfit, rfl, by simp, Or.inl ⟨hsz, rfl⟩⟩
      · rw [if_neg hsz] at ha
        injection ha with h1
        injection h1 with hr hm
        subst hr
        subst hm
        refine ⟨rfl, idx, hole, rfl, hhole, hfit, rfl, by simp, Or.inr ⟨hsz, ?_⟩⟩
        show insertAt (idx + 1) _ (m.blocks.set idx _) = _
        rw [set_insertAt_split _ _ hhole]

theorem WF_allocate {m : Memory} {p : Process} {method : String} {r : Bool} {m' : Memory}
    (h : WF m) (hp : 0 < p.size) (ha : m.allocate p method = Except.ok (r, m')) :
    WF m' := by
  rw [allocate_eq_dispatch] at ha
  have hcases :
      (r = false ∧ m' = m) ∨
      (r = true ∧ ∃ idx hole, m.blocks[idx]? = some hole ∧ fits p.size hole ∧
        m'.total = m.total ∧
        ((hole.size = p.size ∧
            m'.blocks = m.blocks.set idx ({ hole with free := false, tag := some p.name })) ∨
         (hole.size ≠ p.size ∧
            m'.blocks = m.blocks.take idx ++
              ({ start := hole.start, size := p.size, free := false,
                 tag := some p.name } : Block) ::
              ({ start := hole.start + p.size, size := hole.size - p.size, free := true,
                 tag := none } : Block) :: m.blocks.drop (idx + 1)))) := by
    by_cases h1 : pyLower method = "first"
    · rw [if_pos h1] at ha
      have hfound : ∀ i, m._find_first_fit p.size = some i →
          ∃ hole, m.blocks[i]? = some hole ∧ fits p.size hole := by
        intro i hi
        rcases find_first_fit_some hi with ⟨b, hb, hf, _⟩
        exact ⟨b, hb, hf⟩
      rcases allocFinish_ok_cases hfound ha with ⟨hr, hm, _⟩ | ⟨hr, idx, hole, _, hh, hf, ht, _, hb⟩
      · exact Or.inl ⟨hr, hm⟩
      · exact Or.inr ⟨hr, idx, hole, hh, hf, ht, hb⟩
    · rw [if_neg h1] at ha
      by_cases h2 : pyLower method = "best"
      · rw [if_pos h2] at ha
        have hfound : ∀ i, m._find_best_fit p.size = some i →
            ∃ hole, m.blocks[i]? = some hole ∧ fits p.size hole := by
          intro i hi
          rcases find_best_fit_some hi with ⟨b, hb, hf, _⟩
          exact ⟨b, hb, hf⟩
        rcases allocFinish_ok_cases hfound ha with ⟨hr, hm, _⟩ | ⟨hr, idx, hole, _, hh, hf, ht, _, hb⟩
        · exact Or.inl ⟨hr, hm⟩
        · exact Or.inr ⟨hr, idx, hole, hh, hf, ht, hb⟩
      · rw [if_neg h2] at ha
        by_cases h3 : pyLower method = "worst"
        · rw [if_pos h3] at ha
          have hfound : ∀ i, m._find_worst_fit p.size = some i →
              ∃ hole, m.blocks[i]? = some hole ∧ fits p.size hole := by
            intro i hi
            rcases find_worst_fit_some hi with ⟨b, hb, hf, _⟩
            exact ⟨b, hb, hf⟩
          rcases allocFinish_ok_cases hfound ha with ⟨hr, hm, _⟩ | ⟨hr, idx, hole, _, hh, hf, ht, _, hb⟩
          · exact Or.inl ⟨hr, hm⟩
          · exact Or.inr ⟨hr, idx, hole, hh, hf, ht, hb⟩
        · rw [if_neg h3] at ha
          by_cases h4 : pyLower method = "next"
          · rw [if_pos h4] at ha
            have hfound : ∀ i, m._find_next_fit p.size = some i →
                ∃ hole, m.blocks[i]? = some hole ∧ fits p.size hole := by
              intro i hi
              rcases find_next_fit_some hi with ⟨_, b, hb, hf⟩
              exact ⟨b, hb, hf⟩
            rcases allocFinish_ok_cases hfound ha with ⟨hr, hm, _⟩ | ⟨hr, idx, hole, _, hh, hf, ht, _, hb⟩
            · exact Or.inl ⟨hr, hm⟩
            · exact Or.inr ⟨hr, idx, hole, hh, hf, ht, hb⟩
          · rw [if_neg h4] at ha
            cases ha
  rcases hcases with ⟨_, hm⟩ | ⟨_, idx, hole, hhole, hfit, htot, hblocks⟩
  · rw [hm]; exact h
  · rcases h with ⟨hc, hpos, hsum⟩
    have hholemem : hole ∈ m.blocks := List.getElem?_mem hhole
    rcases hblocks with ⟨hsz, hb⟩ | ⟨hsz, hb⟩
    · refine ⟨?_, ?_, ?_⟩
      · rw [hb]
        exact contiguousFrom_set_same hc hhole rfl rfl
      · intro b hb'
        rw [hb] at hb'
        rcases mem_set_same b hb' with rfl | hmem
        · show 0 < hole.size
          exact hpos hole hholemem
        · exact hpos b hmem
      · rw [hb, htot]
        exact (@sizesSum_set_same m.blocks idx hole
          ({ hole with free := false, tag := some p.name }) hhole rfl).trans hsum
    · have husz : p.size < hole.size := by
        rcases hfit with ⟨_, hle⟩
        omega
      refine ⟨?_, ?_, ?_⟩
      · rw [hb]
        refine contiguousFrom_split hc hhole rfl rfl ?_
        show p.size + (hole.size - p.size) = hole.size
        ring
      · intro b hb'
        rw [hb] at hb'
        rcases mem_split b hb' with rfl | rfl | hmem
        · show 0 < p.size
          exact hp
        · show 0 < hole.size - p.size
          omega
        · exact hpos b hmem
      · rw [hb, htot]
        exact (sizesSum_split hhole
          (by show p.size + (hole.size - p.size) = hole.size; ring)).trans hsum

theorem allocFinish_total {m : Memory} {p : Process} {found : Option Nat} {isNext : Bool}
    {r : Bool} {m' : Memory} (ha : allocFinish m p found isNext = Except.ok (r, m')) :
    m'.total = m.total := by
  cases found with
  | none =>
    simp only [allocFinish, Except.ok.injEq, Prod.mk.injEq] at ha
    rw [← ha.2]
  | some idx =>
    cases isNext with
    | false =>
      simp only [allocFinish, Bool.false_eq_true, if_false] at ha
      cases hb : m.blocks[idx]? with
      | none =>
        rw [hb] at ha
        simp only [Except.ok.injEq, Prod.mk.injEq] at ha
        rw [← ha.2]
      | some hole =>
        simp only [hb] at ha
        by_cases hsz : hole.size = p.size
        · rw [if_pos hsz] at ha
          injection ha with h1
          injection h1 with _ hm
          rw [← hm]
        · rw [if_neg hsz] at ha
          injection ha with h1
          injection h1 with _ hm
          rw [← hm]
    | true =>
      simp only [allocFinish, if_true] at ha
      cases hb : m.blocks[idx]? with
      | none =>
        rw [show ({ m with next_fit_index := idx } : Memory).blocks = m.blocks from rfl, hb] at ha
        simp only [Except.ok.injEq, Prod.mk.injEq] at ha
        rw [← ha.2]
      | some hole =>
        simp only [show ({ m with next_fit_index := idx } : Memory).blocks = m.blocks from rfl,
          hb] at ha
        by_cases hsz : hole.size = p.size
        · rw [if_pos hsz] at ha
          injection ha with h1
          injection h1 with _ hm
          rw [← hm]
        · rw [if_neg hsz] at ha
          injection ha with h1
          injection h1 with _ hm
          rw [← hm]

theorem step_total (m : Memory) (op : Op) : (m.step op).total = m.total := by
  cases op with
  | alloc p meth =>
    simp only [Memory.step]
    cases ha : m.allocate p meth with
    | ok x =>
      rw [allocate_eq_dispatch] at ha
      by_cases h1 : pyLower meth = "first"
      · rw [if_pos h1] at ha
        exact allocFinish_total (show _ = Except.ok (x.1, x.2) by rw [ha])
      · rw [if_neg h1] at ha
        by_cases h2 : pyLower meth = "best"
        · rw [if_pos h2] at ha
          exact allocFinish_total (show _ = Except.ok (x.1, x.2) by rw [ha])
        · rw [if_neg h2] at ha
          by_cases h3 : pyLower meth = "worst"
          · rw [if_pos h3] at ha
            exact allocFinish_total (show _ = Except.ok (x.1, x.2) by rw [ha])
          · rw [if_neg h3] at ha
            by_cases h4 : pyLower meth = "next"
            · rw [if_pos h4] at ha
              exact allocFinish_total (show _ = Except.ok (x.1, x.2) by rw [ha])
            · rw [if_neg h4] at ha
              cases ha
    | error e => rfl
  | dealloc t =>
    simp only [Memory.step]
    unfold Memory.deallocate
    by_cases hch : m.blocks.any (fun b => decide (b.free = false ∧ b.tag = some t)) = true
    · rw [if_pos hch]
      rfl
    · rw [if_neg hch]
  | compact =>
    simp only [Memory.step]
    rfl

theorem WF_step {m : Memory} {op : Op} (h : WF m) (hop : ValidOp op) : WF (m.step op) := by
  cases op with
  | alloc p meth =>
    rcases hop with ⟨hp, _⟩
    simp only [Memory.step]
    cases ha : m.allocate p meth with
    | ok x => exact WF_allocate h hp (show _ = Except.ok (x.1, x.2) by rw [ha])
    | error e => exact h
  | dealloc t =>
    simp only [Memory.step]
    exact WF_deallocate h t
  | compact =>
    simp only [Memory.step]
    exact WF_compact h

theorem WF_run {m : Memory} (h : WF m) : ∀ (ops : List Op),
    (∀ op ∈ ops, ValidOp op) → WF (m.run ops) := by
  intro ops
  induction ops generalizing m with
  | nil => intro _; exact h
  | cons op rest ih =>
    intro hops
    show WF ((m.step op).run rest)
    exact ih (WF_step h (hops op (List.mem_cons_self _ _)))
      (fun o ho => hops o (List.mem_cons_of_mem _ ho))

theorem run_total (m : Memory) : ∀ (ops : List Op), (m.run ops).total = m.total := by
  intro ops
  induction ops generalizing m with
  | nil => rfl
  | cons op rest ih =>
    show ((m.step op).run rest).total = m.total
    rw [ih (m.step op), step_total]

theorem init_total (total : Int) (o : Option (List Int)) :
    (Memory.init total o).total = total := by
  cases o with
  | none => rfl
  | some sizes =>
    simp only [Memory.init]
    by_cases hnil : sizes = []
    · rw [if_pos hnil]
    · rw [if_neg hnil]

theorem contiguousFrom_getLast : ∀ {l : List Block} {pos : Int},
    contiguousFrom pos l → l ≠ [] →
    l.getLast?.map Block.endAddr = some (pos + sizesSum l) := by
  intro l
  induction l with
  | nil => intro pos _ hne; exact absurd rfl hne
  | cons b t ih =>
    rintro pos ⟨hs, hc⟩ _
    cases t with
    | nil =>
      show some b.endAddr = some (pos + sizesSum [b])
      rw [sizesSum_singleton]
      unfold Block.endAddr
      rw [hs]
    | cons c t' =>
      rw [List.getLast?_cons_cons]
      have := ih hc (List.cons_ne_nil _ _)
      rw [this]
      congr 1
      have h2 := sizesSum_cons b (c :: t')
      omega

/-- C1: for every Memory constructed with total > 0 and an initial layout of
positive sizes summing to at most total, and after every sequence of allocate
(positive sizes, known strategies), deallocate, and compact calls, the block
list is sorted by strictly increasing start, contiguous (each block ends where
the next begins, the first starts at 0, the last ends at total), and the used
plus free sizes sum to total. -/
theorem C1_partition_invariant (total : Int) (sizes : List Int) (ops : List Op)
    (htot : 0 < total) (hpos : ∀ s ∈ sizes, 0 < s) (hsum : sizes.sum ≤ total)
    (hops : ∀ op ∈ ops, ValidOp op) :
    ((Memory.init total (some sizes)).run ops).blocks.Chain' (fun a b => a.start < b.start) ∧
    contiguousFrom 0 ((Memory.init total (some sizes)).run ops).blocks ∧
    ((Memory.init total (some sizes)).run ops).blocks.head?.map Block.start = some 0 ∧
    ((Memory.init total (some sizes)).run ops).blocks.getLast?.map Block.endAddr = some total ∧
    usedTotal ((Memory.init total (some sizes)).run ops) +
      freeTotal ((Memory.init total (some sizes)).run ops) = total := by
  have hWF : WF ((Memory.init total (some sizes)).run ops) :=
    WF_run (WF_init htot hpos hsum) ops hops
  have htotal : ((Memory.init total (some sizes)).run ops).total = total := by
    rw [run_total, init_total]
  rcases hWF with ⟨hc, hp, hs⟩
  have hne : ((Memory.init total (some sizes)).run ops).blocks ≠ [] := by
    intro hnil
    rw [hnil] at hs
    rw [htotal] at hs
    simp [sizesSum] at hs
    omega
  refine ⟨(contiguousFrom_pairwise hc hp).chain', hc, ?_, ?_, ?_⟩
  · cases hb : ((Memory.init total (some sizes)).run ops).blocks with
    | nil => exact absurd hb hne
    | cons b t =>
      rw [hb] at hc
      show Option.map Block.start (some b) = some 0
      show some b.start = some 0
      rw [hc.1]
  · rw [contiguousFrom_getLast hc hne]
    rw [hs, htotal]
    simp
  · rw [usedTotal_add_freeTotal, hs, htotal]

/-- Witness for C1 at a concrete configuration and operation sequence. -/
theorem C1_partition_invariant_witness :
    ((Memory.init 300 (some [90, 60, 50, 100])).run
      [Op.alloc ⟨"A", 70⟩ "first", Op.alloc ⟨"B", 40⟩ "next",
       Op.dealloc "A", Op.compact]).blocks.Chain' (fun a b => a.start < b.start) ∧
    contiguousFrom 0 ((Memory.init 300 (some [90, 60, 50, 100])).run
      [Op.alloc ⟨"A", 70⟩ "first", Op.alloc ⟨"B", 40⟩ "next",
       Op.dealloc "A", Op.compact]).blocks ∧
    ((Memory.init 300 (some [90, 60, 50, 100])).run
      [Op.alloc ⟨"A", 70⟩ "first", Op.alloc ⟨"B", 40⟩ "next",
       Op.dealloc "A", Op.compact]).blocks.head?.map Block.start = some 0 ∧
    ((Memory.init 300 (some [90, 60, 50, 100])).run
      [Op.alloc ⟨"A", 70⟩ "first", Op.alloc ⟨"B", 40⟩ "next",
       Op.dealloc "A", Op.compact]).blocks.getLast?.map Block.endAddr = some 300 ∧
    usedTotal ((Memory.init 300 (some [90, 60, 50, 100])).run
      [Op.alloc ⟨"A", 70⟩ "first", Op.alloc ⟨"B", 40⟩ "next",
       Op.dealloc "A", Op.compact]) +
      freeTotal ((Memory.init 300 (some [90, 60, 50, 100])).run
        [Op.alloc ⟨"A", 70⟩ "first", Op.alloc ⟨"B", 40⟩ "next",
         Op.dealloc "A", Op.compact]) = 300 :=
  C1_partition_invariant 300 [90, 60, 50, 100]
    [Op.alloc ⟨"A", 70⟩ "first", Op.alloc ⟨"B", 40⟩ "next", Op.dealloc "A", Op.compact]
    (by decide) (by decide) (by decide) (by decide)

/-- C2 counterexample: construction does not fail on malformed layouts. A
zero-size entry and a layout summing past total are both accepted silently,
leaving a (malformed) ledger behind. -/
theorem C2_counterexample :
    (Memory.init 10 (some [0])).blocks =
      [Block.mk 0 0 true none, Block.mk 0 10 true none] ∧
    (Memory.init 10 (some [7, 7])).blocks =
      [Block.mk 0 7 true none, Block.mk 7 7 true none] :=
  ⟨rfl, rfl⟩

/-- C2 amended: construction performs no validation and never fails. For every
total and nonempty layout (well-formed or not), the constructor records the
total, lays out one block per layout entry with exactly the supplied sizes,
and appends a trailing free block exactly when the layout sum is strictly
below total. -/
theorem C2_no_validation (total : Int) (sizes : List Int) (hne : sizes ≠ []) :
    (Memory.init total (some sizes)).total = total ∧
    ((Memory.init total (some sizes)).blocks.map Block.size).take sizes.length = sizes ∧
    (Memory.init total (some sizes)).blocks.length =
      sizes.length + (if sizes.sum < total then 1 else 0) := by
  simp only [Memory.init]
  rw [if_neg hne]
  have hsnd := layoutLoop_snd sizes 0
  have hmap := layoutLoop_map_size sizes 0
  have hlen : (layoutLoop 0 sizes).1.length = sizes.length := by
    have h := congrArg List.length hmap
    simpa using h
  have hcond : ((layoutLoop 0 sizes).2 < total) = (sizes.sum < total) := by
    have h : (layoutLoop 0 sizes).2 = sizes.sum := by omega
    rw [h]
  by_cases hlt : (layoutLoop 0 sizes).2 < total
  · rw [if_pos hlt]
    refine ⟨rfl, ?_, ?_⟩
    · show List.take sizes.length (List.map Block.size ((layoutLoop 0 sizes).1 ++
        [Block.mk (layoutLoop 0 sizes).2 (total - (layoutLoop 0 sizes).2) true none])) = sizes
      rw [List.map_append, hmap]
      exact List.take_left' rfl
    · show ((layoutLoop 0 sizes).1 ++
        [Block.mk (layoutLoop 0 sizes).2 (total - (layoutLoop 0 sizes).2) true none]).length =
          sizes.length + (if sizes.sum < total then 1 else 0)
      rw [List.length_append, hlen]
      have hs : sizes.sum < total := by rw [← hcond]; exact hlt
      rw [if_pos hs]
      rfl
  · rw [if_neg hlt]
    refine ⟨rfl, ?_, ?_⟩
    · show List.take sizes.length (List.map Block.size (layoutLoop 0 sizes).1) = sizes
      rw [hmap]
      simp
    · show (layoutLoop 0 sizes).1.length = sizes.length + (if sizes.sum < total then 1 else 0)
      have hs : ¬ sizes.sum < total := by rw [← hcond]; exact hlt
      rw [if_neg hs, hlen]
      omega

/-- C2 witness: the amended statement at a concrete malformed layout (one
negative entry). -/
theorem C2_no_validation_witness :
    (Memory.init 10 (some [-5])).total = 10 ∧
    ((Memory.init 10 (some [-5])).blocks.map Block.size).take 1 = [-5] ∧
    (Memory.init 10 (some [-5])).blocks.length = 1 + (if (-5 : Int) < 10 then 1 else 0) := by
  have h := C2_no_validation 10 [-5] (by decide)
  simpa using h

theorem allocFinish_not_error {m : Memory} {p : Process} {found : Option Nat}
    {isNext : Bool} {e : String} : allocFinish m p found isNext ≠ Except.error e := by
  cases found with
  | none => simp [allocFinish]
  | some idx =>
    cases isNext with
    | false =>
      simp only [allocFinish, Bool.false_eq_true, if_false]
      cases hb : m.blocks[idx]? with
      | none => simp
      | some hole =>
        by_cases hsz : hole.size = p.size
        · simp [hsz]
        · simp [hsz]
    | true =>
      simp only [allocFinish, if_true]
      cases hb : ({ m with next_fit_index := idx } : Memory).blocks[idx]? with
      | none => simp
      | some hole =>
        by_cases hsz : hole.size = p.size
        · simp [hsz]
        · simp [hsz]

/-- C3 counterexample: a non-positive requested size does not raise. Allocating
a size-0 process succeeds (returns True) and even splits off a zero-size used
block, where the claim says an InvalidArgument-style error must be raised. -/
theorem C3_counterexample :
    (Memory.init 300 (some [90, 60, 50, 100])).allocate ⟨"A", 0⟩ "first" =
      Except.ok (true, Memory.mk 300
        [Block.mk 0 0 false (some "A"), Block.mk 0 90 true none, Block.mk 90 60 true none,
         Block.mk 150 50 true none, Block.mk 200 100 true none] 0) :=
  rfl

/-- C3 amended: allocate raises (the ValueError of the source, modelled as
`Except.error`) if and only if the lower-cased strategy name is unknown; the
requested size is never validated, so non-positive sizes also flow to the
normal search-and-place path and produce a result value. -/
theorem C3_error_iff_unknown_method (m : Memory) (p : Process) (method : String) :
    (∃ e, m.allocate p method = Except.error e) ↔
      ¬(pyLower method = "first" ∨ pyLower method = "best" ∨
        pyLower method = "worst" ∨ pyLower method = "next") := by
  rw [allocate_eq_dispatch]
  by_cases h1 : pyLower method = "first"
  · rw [if_pos h1]
    simp only [h1, true_or, not_true, iff_false, not_exists]
    intro e
    exact allocFinish_not_error
  · rw [if_neg h1]
    by_cases h2 : pyLower method = "best"
    · rw [if_pos h2]
      simp only [h2, true_or, or_true, not_true, iff_false, not_exists]
      intro e
      exact allocFinish_not_error
    · rw [if_neg h2]
      by_cases h3 : pyLower method = "worst"
      · rw [if_pos h3]
        simp only [h3, true_or, or_true, not_true, iff_false, not_exists]
        intro e
        exact allocFinish_not_error
      · rw [if_neg h3]
        by_cases h4 : pyLower method = "next"
        · rw [if_pos h4]
          simp only [h4, true_or, or_true, not_true, iff_false, not_exists]
          intro e
          exact allocFinish_not_error
        · rw [if_neg h4]
          simp only [h1, h2, h3, h4, or_self, false_or, not_false_iff, iff_true]
          exact ⟨_, rfl⟩

theorem pyLowerChar_idem (c : Char) : pyLowerChar (pyLowerChar c) = pyLowerChar c := by
  unfold pyLowerChar
  by_cases h : 65 ≤ c.toNat ∧ c.toNat ≤ 90
  · rw [if_pos h]
    rcases h with ⟨h1, h2⟩
    have h3 : c.toNat < 91 := by omega
    set n := c.toNat with hn
    interval_cases n <;> decide
  · rw [if_neg h, if_neg h]

theorem pyLower_idem (s : String) : pyLower (pyLower s) = pyLower s := by
  unfold pyLower
  simp only [List.map_map]
  congr 1
  apply List.map_congr_left
  intro c _
  exact pyLowerChar_idem c

/-- C9: strategy names are case-insensitive. Allocating with any method string
behaves identically to allocating with its lower-cased form, because allocate
first lower-cases the method and lower-casing is idempotent. -/
theorem C9_case_insensitive (m : Memory) (p : Process) (method : String) :
    m.allocate p method = m.allocate p (pyLower method) := by
  rw [allocate_eq_dispatch, allocate_eq_dispatch m p (pyLower method), pyLower_idem]

/-- C10: the next-fit search is total and in-bounds for every cursor value,
including stale cursors beyond the current list length: on a nonempty block
list it returns an in-range index of a free block of sufficient size when one
exists (probing indices reduced modulo the length), and returns none exactly
when no free block of sufficient size exists anywhere in the list. -/
theorem C10_next_fit_total (m : Memory) (need : Int) (hne : m.blocks ≠ []) :
    (∀ j, m._find_next_fit need = some j →
      j < m.blocks.length ∧ ∃ b, m.blocks[j]? = some b ∧ b.free = true ∧ need ≤ b.size) ∧
    (m._find_next_fit need = none ↔
      ∀ (k : Nat) (c : Block), m.blocks[k]? = some c →
        ¬(c.free = true ∧ need ≤ c.size)) := by
  constructor
  · intro j hj
    rcases find_next_fit_some hj with ⟨hlt, b, hb, hf⟩
    exact ⟨hlt, b, hb, hf.1, hf.2⟩
  · rw [find_next_fit_none hne]
    unfold fits
    exact Iff.rfl

/-- C10 witness: a stale cursor (17) far beyond the two-element list is reduced
modulo the length and the search still finds the free block at index 1. -/
theorem C10_next_fit_total_witness :
    (∀ j, (Memory.mk 300 [Block.mk 0 50 false (some "A"),
        Block.mk 50 250 true none] 17)._find_next_fit 60 = some j →
      j < (Memory.mk 300 [Block.mk 0 50 false (some "A"),
        Block.mk 50 250 true none] 17).blocks.length ∧
      ∃ b, (Memory.mk 300 [Block.mk 0 50 false (some "A"),
        Block.mk 50 250 true none] 17).blocks[j]? = some b ∧
        b.free = true ∧ (60 : Int) ≤ b.size) ∧
    ((Memory.mk 300 [Block.mk 0 50 false (some "A"),
        Block.mk 50 250 true none] 17)._find_next_fit 60 = none ↔
      ∀ (k : Nat) (c : Block), (Memory.mk 300 [Block.mk 0 50 false (some "A"),
        Block.mk 50 250 true none] 17).blocks[k]? = some c →
        ¬(c.free = true ∧ (60 : Int) ≤ c.size)) :=
  C10_next_fit_total
    (Memory.mk 300 [Block.mk 0 50 false (some "A"), Block.mk 50 250 true none] 17)
    60 (by decide)

/-- C4 counterexample: on the spec's example with a request of 70, best-fit
selects index 0 — the region at offset 0 (size 90, slack 20) — not the region
at offset 90 claimed by the spec: the size-60 region at offset 90 does not
even qualify for a request of 70. -/
theorem C4_counterexample :
    (exampleMemory._find_best_fit 70).bind
      (fun i => (exampleMemory.blocks[i]?).map Block.start) = some 0 ∧
    (0 : Int) ≠ 90 := by
  constructor
  · rfl
  · decide

/-- C4 amended: every strategy selects only among free regions with size at
least the request; first-fit returns the first qualifying index in list order
(which is address order, by the partition invariant); best-fit minimizes
size − requested with ties to the first such index; worst-fit maximizes
size − requested with ties to the first such index. In the spec's example
with request 70, first-fit chooses index 0 (offset 0), best-fit chooses
index 0 (offset 0 — not offset 90: the size-60 region does not qualify), and
worst-fit chooses index 3 (offset 200). -/
theorem C4_strategy_selection (m : Memory) (need : Int) :
    (∀ j, m._find_first_fit need = some j →
      ∃ b, m.blocks[j]? = some b ∧ b.free = true ∧ need ≤ b.size ∧
        ∀ k, k < j → ∀ c, m.blocks[k]? = some c → ¬(c.free = true ∧ need ≤ c.size)) ∧
    (∀ j, m._find_best_fit need = some j →
      ∃ b, m.blocks[j]? = some b ∧ b.free = true ∧ need ≤ b.size ∧
        ∀ (k : Nat) (c : Block), m.blocks[k]? = some c → c.free = true → need ≤ c.size →
          b.size - need ≤ c.size - need ∧ (c.size - need = b.size - need → j ≤ k)) ∧
    (∀ j, m._find_worst_fit need = some j →
      ∃ b, m.blocks[j]? = some b ∧ b.free = true ∧ need ≤ b.size ∧
        ∀ (k : Nat) (c : Block), m.blocks[k]? = some c → c.free = true → need ≤ c.size →
          c.size - need ≤ b.size - need ∧ (c.size - need = b.size - need → j ≤ k)) ∧
    (exampleMemory._find_first_fit 70 = some 0 ∧
      (exampleMemory.blocks[0]?).map Block.start = some 0) ∧
    (exampleMemory._find_best_fit 70 = some 0 ∧
      (exampleMemory.blocks[0]?).map Block.start = some 0) ∧
    (exampleMemory._find_worst_fit 70 = some 3 ∧
      (exampleMemory.blocks[3]?).map Block.start = some 200) := by
  refine ⟨?_, ?_, ?_, ⟨rfl, rfl⟩, ⟨rfl, rfl⟩, ⟨rfl, rfl⟩⟩
  · intro j hj
    rcases find_first_fit_some hj with ⟨b, hb, hf, hmin⟩
    exact ⟨b, hb, hf.1, hf.2, fun k hk c hc hcf => hmin k hk c hc hcf⟩
  · intro j hj
    rcases find_best_fit_some hj with ⟨b, hb, hf, hmin⟩
    exact ⟨b, hb, hf.1, hf.2, fun k c hc hcf hcs => hmin k c hc ⟨hcf, hcs⟩⟩
  · intro j hj
    rcases find_worst_fit_some hj with ⟨b, hb, hf, hmax⟩
    exact ⟨b, hb, hf.1, hf.2, fun k c hc hcf hcs => hmax k c hc ⟨hcf, hcs⟩⟩

theorem compact_eq (m : Memory) (hsort : sortByStart m.blocks = m.blocks) :
    m.compact = Memory.mk m.total
      (if (relayoutLoop 0 (m.blocks.filter (fun b => !b.free))).2 < m.total then
        (relayoutLoop 0 (m.blocks.filter (fun b => !b.free))).1 ++
          [Block.mk (relayoutLoop 0 (m.blocks.filter (fun b => !b.free))).2
            (m.total - (relayoutLoop 0 (m.blocks.filter (fun b => !b.free))).2) true none]
      else (relayoutLoop 0 (m.blocks.filter (fun b => !b.free))).1) 0 := by
  unfold Memory.compact
  rw [hsort]

theorem relayoutLoop_snd_eq_usedTotal (m : Memory) :
    (relayoutLoop 0 (m.blocks.filter (fun b => !b.free))).2 = usedTotal m := by
  rw [relayoutLoop_snd]
  unfold usedTotal
  omega

/-- C5: after compact on a well-formed ledger, the used regions keep their
relative order, sizes and owner tags (as the sequence of (tag, size) pairs of
the used blocks, read in list order, which coincides with address order on
both sides); the rebuilt list tiles the range from offset 0; any free block in
the result is the single trailing one, starting at the used total with size
total − used total; there is exactly one free block when the used total is
below total and none otherwise (zero remainder omitted); and the next-fit
cursor is reset to 0. -/
theorem C5_compact (m : Memory) (h : WF m) :
    (m.compact).next_fit_index = 0 ∧
    ((m.compact).blocks.filter (fun b => !b.free)).map (fun b => (b.tag, b.size)) =
      (m.blocks.filter (fun b => !b.free)).map (fun b => (b.tag, b.size)) ∧
    contiguousFrom 0 (m.compact).blocks ∧
    (∀ b ∈ (m.compact).blocks, b.free = true →
      b.start = usedTotal m ∧ b.size = m.total - usedTotal m) ∧
    ((m.compact).blocks.filter (fun b => b.free)).length =
      (if usedTotal m < m.total then 1 else 0) := by
  have hcontig := (WF_compact h).1
  have heq := compact_eq m (WF.sortByStart_eq h)
  have hr2 := relayoutLoop_snd_eq_usedTotal m
  have hrelfree := relayoutLoop_not_free (m.blocks.filter (fun b => !b.free)) 0
  have hfilter_rel :
      (relayoutLoop 0 (m.blocks.filter (fun b => !b.free))).1.filter (fun b => !b.free) =
        (relayoutLoop 0 (m.blocks.filter (fun b => !b.free))).1 := by
    apply List.filter_eq_self.mpr
    intro b hb
    rw [hrelfree b hb]
    rfl
  have hfilter_rel_free :
      (relayoutLoop 0 (m.blocks.filter (fun b => !b.free))).1.filter (fun b => b.free) = [] := by
    apply List.filter_eq_nil_iff.mpr
    intro b hb
    rw [hrelfree b hb]
    simp
  refine ⟨by rw [heq], ?_, hcontig, ?_, ?_⟩
  · rw [heq]
    by_cases hlt : (relayoutLoop 0 (m.blocks.filter (fun b => !b.free))).2 < m.total
    · show ((if _ < _ then _ else _ : List Block).filter _).map _ = _
      rw [if_pos hlt, List.filter_append, hfilter_rel]
      rw [show (([Block.mk (relayoutLoop 0 (m.blocks.filter (fun b => !b.free))).2
          (m.total - (relayoutLoop 0 (m.blocks.filter (fun b => !b.free))).2) true
          none] : List Block).filter (fun b => !b.free)) = [] from rfl]
      rw [List.append_nil]
      exact relayoutLoop_tag_size (m.blocks.filter (fun b => !b.free)) 0
    · show ((if _ < _ then _ else _ : List Block).filter _).map _ = _
      rw [if_neg hlt, hfilter_rel]
      exact relayoutLoop_tag_size (m.blocks.filter (fun b => !b.free)) 0
  · intro b hb hbfree
    rw [heq] at hb
    by_cases hlt : (relayoutLoop 0 (m.blocks.filter (fun b => !b.free))).2 < m.total
    · rw [show (Memory.mk m.total _ 0).blocks = _ from rfl, if_pos hlt] at hb
      rcases List.mem_append.mp hb with hmem | hmem
      · rw [hrelfree b hmem] at hbfree
        cases hbfree
      · simp at hmem
        rw [hmem]
        constructor
        · show (relayoutLoop 0 (m.blocks.filter (fun b => !b.free))).2 = usedTotal m
          exact hr2
        · show m.total - (relayoutLoop 0 (m.blocks.filter (fun b => !b.free))).2 =
            m.total - usedTotal m
          rw [hr2]
    · rw [show (Memory.mk m.total _ 0).blocks = _ from rfl, if_neg hlt] at hb
      rw [hrelfree b hb] at hbfree
      cases hbfree
  · rw [heq]
    by_cases hlt : (relayoutLoop 0 (m.blocks.filter (fun b => !b.free))).2 < m.total
    · show ((if _ < _ then _ else _ : List Block).filter _).length = _
      rw [if_pos hlt, List.filter_append, hfilter_rel_free]
      have hut : usedTotal m < m.total := by rw [← hr2]; exact hlt
      rw [if_pos hut]
      rfl
    · show ((if _ < _ then _ else _ : List Block).filter _).length = _
      rw [if_neg hlt, hfilter_rel_free]
      have hut : ¬ usedTotal m < m.total := by rw [← hr2]; exact hlt
      rw [if_neg hut]
      rfl

/-- C5 witness: compacting a concrete well-formed ledger with two used and two
free regions. -/
theorem C5_compact_witness :
    ((Memory.mk 300 [Block.mk 0 70 false (some "A"), Block.mk 70 30 true none,
        Block.mk 100 80 false (some "C"), Block.mk 180 120 true none] 2).compact).next_fit_index
        = 0 ∧
    (((Memory.mk 300 [Block.mk 0 70 false (some "A"), Block.mk 70 30 true none,
        Block.mk 100 80 false (some "C"),
        Block.mk 180 120 true none] 2).compact).blocks.filter (fun b => !b.free)).map
          (fun b => (b.tag, b.size)) =
      ((Memory.mk 300 [Block.mk 0 70 false (some "A"), Block.mk 70 30 true none,
        Block.mk 100 80 false (some "C"),
        Block.mk 180 120 true none] 2).blocks.filter (fun b => !b.free)).map
          (fun b => (b.tag, b.size)) ∧
    contiguousFrom 0 ((Memory.mk 300 [Block.mk 0 70 false (some "A"),
      Block.mk 70 30 true none, Block.mk 100 80 false (some "C"),
      Block.mk 180 120 true none] 2).compact).blocks ∧
    (∀ b ∈ ((Memory.mk 300 [Block.mk 0 70 false (some "A"), Block.mk 70 30 true none,
        Block.mk 100 80 false (some "C"),
        Block.mk 180 120 true none] 2).compact).blocks, b.free = true →
      b.start = usedTotal (Memory.mk 300 [Block.mk 0 70 false (some "A"),
        Block.mk 70 30 true none, Block.mk 100 80 false (some "C"),
        Block.mk 180 120 true none] 2) ∧
      b.size = 300 - usedTotal (Memory.mk 300 [Block.mk 0 70 false (some "A"),
        Block.mk 70 30 true none, Block.mk 100 80 false (some "C"),
        Block.mk 180 120 true none] 2)) ∧
    (((Memory.mk 300 [Block.mk 0 70 false (some "A"), Block.mk 70 30 true none,
        Block.mk 100 80 false (some "C"),
        Block.mk 180 120 true none] 2).compact).blocks.filter (fun b => b.free)).length =
      (if usedTotal (Memory.mk 300 [Block.mk 0 70 false (some "A"),
          Block.mk 70 30 true none, Block.mk 100 80 false (some "C"),
          Block.mk 180 120 true none] 2) < 300 then 1 else 0) :=
  C5_compact (Memory.mk 300 [Block.mk 0 70 false (some "A"), Block.mk 70 30 true none,
    Block.mk 100 80 false (some "C"), Block.mk 180 120 true none] 2) (by decide)

theorem noAdjacentFree_all_used : ∀ {l : List Block},
    (∀ b ∈ l, b.free = false) → noAdjacentFree l := by
  intro l
  induction l with
  | nil => intro _; trivial
  | cons a t ih =>
    intro h
    cases t with
    | nil => trivial
    | cons b t' =>
      refine ⟨?_, ih (fun x hx => h x (List.mem_cons_of_mem _ hx))⟩
      rintro ⟨ha, _⟩
      rw [h a (List.mem_cons_self _ _)] at ha
      cases ha

theorem noAdjacentFree_append_single {x : Block} : ∀ {l : List Block},
    (∀ b ∈ l, b.free = false) → noAdjacentFree (l ++ [x]) := by
  intro l
  induction l with
  | nil => intro _; trivial
  | cons a t ih =>
    intro h
    cases t with
    | nil =>
      refine ⟨?_, trivial⟩
      rintro ⟨ha, _⟩
      rw [h a (List.mem_cons_self _ _)] at ha
      cases ha
    | cons b t' =>
      refine ⟨?_, ih (fun y hy => h y (List.mem_cons_of_mem _ hy))⟩
      rintro ⟨ha, _⟩
      rw [h a (List.mem_cons_self _ _)] at ha
      cases ha

theorem compact_blocks_eq (m : Memory) :
    (m.compact).blocks =
      (if (relayoutLoop 0 ((sortByStart m.blocks).filter (fun b => !b.free))).2 < m.total then
        (relayoutLoop 0 ((sortByStart m.blocks).filter (fun b => !b.free))).1 ++
          [Block.mk (relayoutLoop 0 ((sortByStart m.blocks).filter (fun b => !b.free))).2
            (m.total - (relayoutLoop 0 ((sortByStart m.blocks).filter (fun b => !b.free))).2)
            true none]
      else (relayoutLoop 0 ((sortByStart m.blocks).filter (fun b => !b.free))).1) :=
  rfl

/-- C6 counterexample: a deallocate call that frees nothing does not coalesce,
so adjacent free regions survive it. The initial layout [90, 60] (plus the
remainder block) is built with three mutually adjacent free regions and
deallocating the unknown owner "X" leaves them all in place. -/
theorem C6_counterexample :
    ((Memory.init 300 (some [90, 60])).deallocate "X").2.blocks =
      [Block.mk 0 90 true none, Block.mk 90 60 true none, Block.mk 150 150 true none] ∧
    ¬ noAdjacentFree ((Memory.init 300 (some [90, 60])).deallocate "X").2.blocks :=
  ⟨rfl, by decide⟩

/-- C6 amended: immediately after a deallocate call that freed at least one
region (returned True) on a well-formed ledger, and immediately after any
compact call, no two consecutive regions are both Free. A deallocate that
frees nothing returns the ledger unchanged, so pre-existing adjacent free
runs (possible because construction does not coalesce its initial layout)
persist. -/
theorem C6_no_adjacent_free (m : Memory) (t : String) (h : WF m) :
    ((m.deallocate t).1 = true → noAdjacentFree (m.deallocate t).2.blocks) ∧
    noAdjacentFree (m.compact).blocks := by
  constructor
  · intro hch
    unfold Memory.deallocate at hch ⊢
    by_cases hany : m.blocks.any (fun b => decide (b.free = false ∧ b.tag = some t)) = true
    · rw [if_pos hany]
      rcases h with ⟨hc, hp, _⟩
      have hf : ∀ b : Block,
          ((if b.free = false ∧ b.tag = some t then
              { b with free := true, tag := none } else b) : Block).start = b.start ∧
          ((if b.free = false ∧ b.tag = some t then
              { b with free := true, tag := none } else b) : Block).size = b.size := by
        intro b
        by_cases hb : b.free = false ∧ b.tag = some t
        · rw [if_pos hb]; exact ⟨rfl, rfl⟩
        · rw [if_neg hb]; exact ⟨rfl, rfl⟩
      have hcmap : contiguousFrom 0 (m.blocks.map (fun b =>
          if b.free = false ∧ b.tag = some t then
            { b with free := true, tag := none } else b)) :=
        contiguousFrom_map_preserve hf hc
      have hpmap : ∀ b ∈ m.blocks.map (fun b =>
          if b.free = false ∧ b.tag = some t then
            { b with free := true, tag := none } else b), 0 < b.size := by
        intro b hb
        rcases List.mem_map.mp hb with ⟨c, hcmem, hcb⟩
        have h2 := (hf c).2
        rw [hcb] at h2
        have := hp c hcmem
        omega
      show noAdjacentFree (Memory._coalesce _).blocks
      unfold Memory._coalesce
      show noAdjacentFree (mergeRun (sortByStart _))
      rw [sortByStart_eq_self ((contiguousFrom_pairwise hcmap hpmap).imp
        (fun hab => le_of_lt hab))]
      exact mergeRun_noAdjacentFree hcmap
    · rw [if_neg hany] at hch
      cases hch
  · rw [compact_blocks_eq]
    by_cases hlt :
        (relayoutLoop 0 ((sortByStart m.blocks).filter (fun b => !b.free))).2 < m.total
    · rw [if_pos hlt]
      exact noAdjacentFree_append_single
        (relayoutLoop_not_free ((sortByStart m.blocks).filter (fun b => !b.free)) 0)
    · rw [if_neg hlt]
      exact noAdjacentFree_all_used
        (relayoutLoop_not_free ((sortByStart m.blocks).filter (fun b => !b.free)) 0)

/-- C6 witness: deallocating owner "A" from a concrete well-formed ledger frees
one region and leaves no adjacent free pair; compacting likewise. -/
theorem C6_no_adjacent_free_witness :
    noAdjacentFree ((Memory.mk 300 [Block.mk 0 70 false (some "A"),
      Block.mk 70 230 true none] 0).deallocate "A").2.blocks ∧
    noAdjacentFree ((Memory.mk 300 [Block.mk 0 70 false (some "A"),
      Block.mk 70 230 true none] 0).compact).blocks :=
  ⟨(C6_no_adjacent_free (Memory.mk 300 [Block.mk 0 70 false (some "A"),
      Block.mk 70 230 true none] 0) "A" (by decide)).1 (by decide),
   (C6_no_adjacent_free (Memory.mk 300 [Block.mk 0 70 false (some "A"),
      Block.mk 70 230 true none] 0) "A" (by decide)).2⟩

theorem foldl_max_ge : ∀ (xs : List Int) (a : Int),
    a ≤ xs.foldl max a ∧ ∀ y ∈ xs, y ≤ xs.foldl max a := by
  intro xs
  induction xs with
  | nil => intro a; exact ⟨le_refl _, by simp⟩
  | cons z t ih =>
    intro a
    rcases ih (max a z) with ⟨h1, h2⟩
    refine ⟨le_trans (le_max_left a z) h1, ?_⟩
    intro y hy
    rcases List.mem_cons.mp hy with rfl | hy
    · exact le_trans (le_max_right a y) h1
    · exact h2 y hy

theorem foldl_max_mem : ∀ (xs : List Int) (a : Int),
    xs.foldl max a = a ∨ xs.foldl max a ∈ xs := by
  intro xs
  induction xs with
  | nil => intro a; exact Or.inl rfl
  | cons z t ih =>
    intro a
    rw [List.foldl_cons]
    rcases ih (max a z) with h | h
    · rw [h]
      rcases max_choice a z with hm | hm
      · rw [hm]
        exact Or.inl rfl
      · rw [hm]
        exact Or.inr (List.mem_cons_self _ _)
    · exact Or.inr (List.mem_cons_of_mem _ h)

theorem maxOr0_ge (l : List Int) : ∀ x ∈ l, x ≤ maxOr0 l := by
  cases l with
  | nil => intro x hx; cases hx
  | cons a t =>
    intro x hx
    rcases List.mem_cons.mp hx with rfl | hx
    · exact (foldl_max_ge t x).1
    · exact (foldl_max_ge t a).2 x hx

theorem maxOr0_eq_zero_or_mem (l : List Int) : maxOr0 l = 0 ∨ maxOr0 l ∈ l := by
  cases l with
  | nil => exact Or.inl rfl
  | cons a t =>
    rw [show maxOr0 (a :: t) = t.foldl max a from rfl]
    rcases foldl_max_mem t a with h | h
    · rw [h]
      exact Or.inr (List.mem_cons_self _ _)
    · exact Or.inr (List.mem_cons_of_mem _ h)

theorem pyRound3_bounds {q : ℚ} (h0 : 0 ≤ q) (h1 : q ≤ 1) :
    0 ≤ pyRound3 q ∧ pyRound3 q ≤ 1 := by
  unfold pyRound3
  have hlow : (0 : ℤ) ≤ ⌊1000 * q + 1 / 2⌋ := by
    rw [Int.floor_nonneg]
    have : (0 : ℚ) ≤ 1000 * q := by positivity
    linarith
  have hhigh : ⌊1000 * q + 1 / 2⌋ ≤ 1000 := by
    rw [Int.floor_le_iff]
    push_cast
    linarith
  constructor
  · apply div_nonneg _ (by norm_num)
    exact_mod_cast hlow
  · rw [div_le_one (by norm_num : (0 : ℚ) < 1000)]
    exact_mod_cast hhigh

theorem pyRound3_zero : pyRound3 0 = 0 := by
  unfold pyRound3
  rw [show ⌊(1000 : ℚ) * 0 + 1 / 2⌋ = 0 from by
    rw [Int.floor_eq_iff]
    norm_num]
  norm_num

/-- C8: the statistics query returns used and free totals as the sums of the
used and free block sizes, the largest free hole as the maximum free size
(with bound and attainment stated explicitly, 0 when there are no free
blocks), and the external-fragmentation ratio as
(free_total − largest) / free_total rounded to three decimals (0 when
free_total is 0); under non-negative sizes the rounded ratio lies in [0, 1].
Python's float division and round are modelled in exact rational
arithmetic. -/
theorem C8_stats (m : Memory) (h : ∀ b ∈ m.blocks, 0 ≤ b.size) :
    (summarize_sim m).sim_total = m.total ∧
    (summarize_sim m).sim_used = usedTotal m ∧
    (summarize_sim m).sim_free = freeTotal m ∧
    (∀ b ∈ m.blocks, b.free = true → b.size ≤ (summarize_sim m).sim_largest_hole) ∧
    ((summarize_sim m).sim_largest_hole = 0 ∨
      ∃ b ∈ m.blocks, b.free = true ∧ b.size = (summarize_sim m).sim_largest_hole) ∧
    (summarize_sim m).sim_ext_frag_ratio =
      (if freeTotal m = 0 then 0
       else pyRound3 (((freeTotal m : ℚ) - ((summarize_sim m).sim_largest_hole : ℚ)) /
         (freeTotal m : ℚ))) ∧
    0 ≤ (summarize_sim m).sim_ext_frag_ratio ∧
    (summarize_sim m).sim_ext_frag_ratio ≤ 1 := by
  have hL_def : (summarize_sim m).sim_largest_hole =
      maxOr0 ((m.blocks.filter (fun b => b.free)).map Block.size) := rfl
  have hF_def : (summarize_sim m).sim_free = freeTotal m := rfl
  have hfree_nonneg : ∀ x ∈ (m.blocks.filter (fun b => b.free)).map Block.size, 0 ≤ x := by
    intro x hx
    rcases List.mem_map.mp hx with ⟨c, hcmem, rfl⟩
    exact h c (List.mem_of_mem_filter hcmem)
  have hF_nonneg : 0 ≤ freeTotal m := by
    unfold freeTotal sizesSum
    exact List.sum_nonneg hfree_nonneg
  have hL_nonneg : 0 ≤ (summarize_sim m).sim_largest_hole := by
    rw [hL_def]
    rcases maxOr0_eq_zero_or_mem ((m.blocks.filter (fun b => b.free)).map Block.size) with
      hz | hmem
    · rw [hz]
    · exact hfree_nonneg _ hmem
  have hL_le_F : (summarize_sim m).sim_largest_hole ≤ freeTotal m := by
    rw [hL_def]
    rcases maxOr0_eq_zero_or_mem ((m.blocks.filter (fun b => b.free)).map Block.size) with
      hz | hmem
    · rw [hz]
      exact hF_nonneg
    · unfold freeTotal sizesSum
      exact List.single_le_sum hfree_nonneg _ hmem
  have hratio : (summarize_sim m).sim_ext_frag_ratio =
      pyRound3 (if freeTotal m = 0 then 0
        else ((freeTotal m : ℚ) - ((summarize_sim m).sim_largest_hole : ℚ)) /
          (freeTotal m : ℚ)) := rfl
  refine ⟨rfl, rfl, rfl, ?_, ?_, ?_, ?_⟩
  · intro b hb hbf
    rw [hL_def]
    exact maxOr0_ge _ _ (List.mem_map_of_mem _ (List.mem_filter.mpr ⟨hb, hbf⟩))
  · rw [hL_def]
    rcases maxOr0_eq_zero_or_mem ((m.blocks.filter (fun b => b.free)).map Block.size) with
      hz | hmem
    · exact Or.inl hz
    · right
      rcases List.mem_map.mp hmem with ⟨c, hcmem, hcs⟩
      exact ⟨c, List.mem_of_mem_filter hcmem,
        (List.mem_filter.mp hcmem).2, hcs⟩
  · rw [hratio]
    by_cases hF : freeTotal m = 0
    · rw [if_pos hF, if_pos hF, pyRound3_zero]
    · rw [if_neg hF, if_neg hF]
  · rw [hratio]
    by_cases hF : freeTotal m = 0
    · rw [if_pos hF, pyRound3_zero]
      exact ⟨le_refl _, by norm_num⟩
    · rw [if_neg hF]
      have hFpos : (0 : Int) < freeTotal m := lt_of_le_of_ne hF_nonneg (Ne.symm hF)
      have hFposQ : (0 : ℚ) < (freeTotal m : ℚ) := by exact_mod_cast hFpos
      have hLQ : (0 : ℚ) ≤ ((summarize_sim m).sim_largest_hole : ℚ) := by
        exact_mod_cast hL_nonneg
      have hLFQ : ((summarize_sim m).sim_largest_hole : ℚ) ≤ (freeTotal m : ℚ) := by
        exact_mod_cast hL_le_F
      have hq0 : (0 : ℚ) ≤
          ((freeTotal m : ℚ) - ((summarize_sim m).sim_largest_hole : ℚ)) /
            (freeTotal m : ℚ) :=
        div_nonneg (by linarith) (le_of_lt hFposQ)
      have hq1 : ((freeTotal m : ℚ) - ((summarize_sim m).sim_largest_hole : ℚ)) /
          (freeTotal m : ℚ) ≤ 1 := by
        rw [div_le_one hFposQ]
        linarith
      exact pyRound3_bounds hq0 hq1

/-- C8 witness: the statistics of a concrete ledger with free holes of sizes
130 and 20 (ratio (150−130)/150 rounded to 0.133). -/
theorem C8_stats_witness :
    (summarize_sim (Memory.mk 300 [Block.mk 0 70 false (some "A"),
      Block.mk 70 130 true none, Block.mk 200 80 false (some "C"),
      Block.mk 280 20 true none] 0)).sim_total = 300 ∧
    (summarize_sim (Memory.mk 300 [Block.mk 0 70 false (some "A"),
      Block.mk 70 130 true none, Block.mk 200 80 false (some "C"),
      Block.mk 280 20 true none] 0)).sim_used =
      usedTotal (Memory.mk 300 [Block.mk 0 70 false (some "A"),
        Block.mk 70 130 true none, Block.mk 200 80 false (some "C"),
        Block.mk 280 20 true none] 0) ∧
    (summarize_sim (Memory.mk 300 [Block.mk 0 70 false (some "A"),
      Block.mk 70 130 true none, Block.mk 200 80 false (some "C"),
      Block.mk 280 20 true none] 0)).sim_free =
      freeTotal (Memory.mk 300 [Block.mk 0 70 false (some "A"),
        Block.mk 70 130 true none, Block.mk 200 80 false (some "C"),
        Block.mk 280 20 true none] 0) ∧
    (∀ b ∈ (Memory.mk 300 [Block.mk 0 70 false (some "A"),
      Block.mk 70 130 true none, Block.mk 200 80 false (some "C"),
      Block.mk 280 20 true none] 0).blocks, b.free = true →
      b.size ≤ (summarize_sim (Memory.mk 300 [Block.mk 0 70 false (some "A"),
        Block.mk 70 130 true none, Block.mk 200 80 false (some "C"),
        Block.mk 280 20 true none] 0)).sim_largest_hole) ∧
    ((summarize_sim (Memory.mk 300 [Block.mk 0 70 false (some "A"),
      Block.mk 70 130 true none, Block.mk 200 80 false (some "C"),
      Block.mk 280 20 true none] 0)).sim_largest_hole = 0 ∨
      ∃ b ∈ (Memory.mk 300 [Block.mk 0 70 false (some "A"),
        Block.mk 70 130 true none, Block.mk 200 80 false (some "C"),
        Block.mk 280 20 true none] 0).blocks, b.free = true ∧
        b.size = (summarize_sim (Memory.mk 300 [Block.mk 0 70 false (some "A"),
          Block.mk 70 130 true none, Block.mk 200 80 false (some "C"),
          Block.mk 280 20 true none] 0)).sim_largest_hole) ∧
    (summarize_sim (Memory.mk 300 [Block.mk 0 70 false (some "A"),
      Block.mk 70 130 true none, Block.mk 200 80 false (some "C"),
      Block.mk 280 20 true none] 0)).sim_ext_frag_ratio =
      (if freeTotal (Memory.mk 300 [Block.mk 0 70 false (some "A"),
          Block.mk 70 130 true none, Block.mk 200 80 false (some "C"),
          Block.mk 280 20 true none] 0) = 0 then 0
       else pyRound3 (((freeTotal (Memory.mk 300 [Block.mk 0 70 false (some "A"),
          Block.mk 70 130 true none, Block.mk 200 80 false (some "C"),
          Block.mk 280 20 true none] 0) : ℚ) -
            ((summarize_sim (Memory.mk 300 [Block.mk 0 70 false (some "A"),
              Block.mk 70 130 true none, Block.mk 200 80 false (some "C"),
              Block.mk 280 20 true none] 0)).sim_largest_hole : ℚ)) /
         (freeTotal (Memory.mk 300 [Block.mk 0 70 false (some "A"),
          Block.mk 70 130 true none, Block.mk 200 80 false (some "C"),
          Block.mk 280 20 true none] 0) : ℚ))) ∧
    0 ≤ (summarize_sim (Memory.mk 300 [Block.mk 0 70 false (some "A"),
      Block.mk 70 130 true none, Block.mk 200 80 false (some "C"),
      Block.mk 280 20 true none] 0)).sim_ext_frag_ratio ∧
    (summarize_sim (Memory.mk 300 [Block.mk 0 70 false (some "A"),
      Block.mk 70 130 true none, Block.mk 200 80 false (some "C"),
      Block.mk 280 20 true none] 0)).sim_ext_frag_ratio ≤ 1 :=
  C8_stats (Memory.mk 300 [Block.mk 0 70 false (some "A"),
    Block.mk 70 130 true none, Block.mk 200 80 false (some "C"),
    Block.mk 280 20 true none] 0) (by decide)

theorem pairwise_start_inj {l : List Block}
    (hpw : l.Pairwise (fun a b => a.start < b.start)) :
    ∀ {i j : Nat} {c d : Block}, l[i]? = some c → l[j]? = some d →
      c.start = d.start → c = d := by
  intro i j c d hc hd hs
  rcases List.getElem?_eq_some_iff.mp hc with ⟨hi, hci⟩
  rcases List.getElem?_eq_some_iff.mp hd with ⟨hj, hdj⟩
  rcases Nat.lt_trichotomy i j with hij | hij | hij
  · have hlt := List.pairwise_iff_getElem.mp hpw i j hi hj hij
    rw [hci, hdj] at hlt
    omega
  · subst hij
    rw [hci] at hdj
    rw [hdj]
  · have hlt := List.pairwise_iff_getElem.mp hpw j i hj hi hij
    rw [hci, hdj] at hlt
    omega

theorem getElem?_split_mid : ∀ {l : List Block} {i : Nat} {hole : Block} (u r' : Block),
    l[i]? = some hole →
    (l.take i ++ u :: r' :: l.drop (i + 1))[i]? = some u := by
  intro l
  induction l with
  | nil => intro i hole u r' h; simp at h
  | cons c t ih =>
    intro i hole u r' h
    cases i with
    | zero => rfl
    | succ n =>
      simp only [List.getElem?_cons_succ] at h
      simp only [List.take_succ_cons, List.drop_succ_cons, List.cons_append,
        List.getElem?_cons_succ]
      exact ih u r' h

/-- C7: on a well-formed ledger, after a successful next-fit allocation the
cursor holds the index of the region that now carries the new allocation
(used, tagged with the process name, at the chosen hole's start); and a second
successful next-fit search (same requested size) with no intervening compact
or deallocate selects a region with a different start address. -/
theorem C7_next_fit_advances (m : Memory) (p q : Process) (m1 : Memory)
    (i1 i2 : Nat) (b1 b2 : Block)
    (hWF : WF m) (hp : 0 < p.size) (_hq : q.size = p.size)
    (h1 : m._find_next_fit p.size = some i1)
    (hb1 : m.blocks[i1]? = some b1)
    (ha : m.allocate p "next" = Except.ok (true, m1))
    (h2 : m1._find_next_fit q.size = some i2)
    (hb2 : m1.blocks[i2]? = some b2) :
    b2.start ≠ b1.start ∧
    m1.next_fit_index = i1 ∧
    (∃ c, m1.blocks[i1]? = some c ∧ c.free = false ∧ c.tag = some p.name ∧
      c.start = b1.start) := by
  have hWF1 : WF m1 := WF_allocate hWF hp ha
  rw [allocate_eq_dispatch] at ha
  have hlow : pyLower "next" = "next" := rfl
  rw [hlow] at ha
  rw [if_neg (by decide), if_neg (by decide), if_neg (by decide), if_pos rfl] at ha
  have hfound : ∀ i, m._find_next_fit p.size = some i →
      ∃ hole, m.blocks[i]? = some hole ∧ fits p.size hole := by
    intro i hi
    rcases find_next_fit_some hi with ⟨_, b, hb, hf⟩
    exact ⟨b, hb, hf⟩
  rcases allocFinish_ok_cases hfound ha with ⟨hr, _, _⟩ | ⟨_, idx, hole, hfeq, hhole, hfit, _, hcur, hblocks⟩
  · cases hr
  · have hidx : idx = i1 := by
      rw [h1] at hfeq
      exact (Option.some.inj hfeq).symm
    subst hidx
    have hhb : hole = b1 := by
      rw [hb1] at hhole
      exact (Option.some.inj hhole).symm
    subst hhb
    have hcur1 : m1.next_fit_index = idx := by
      rw [hcur]
      simp
    have hc : ∃ c, m1.blocks[idx]? = some c ∧ c.free = false ∧ c.tag = some p.name ∧
        c.start = hole.start := by
      rcases hblocks with ⟨hsz, hb⟩ | ⟨hsz, hb⟩
      · refine ⟨{ hole with free := false, tag := some p.name }, ?_, rfl, rfl, rfl⟩
        rw [hb]
        exact List.getElem?_set_self (List.getElem?_eq_some_iff.mp hhole).choose
      · refine ⟨Block.mk hole.start p.size false (some p.name), ?_, rfl, rfl, rfl⟩
        rw [hb]
        exact getElem?_split_mid _ _ hhole
    rcases hc with ⟨c, hcidx, hcfree, hctag, hcstart⟩
    refine ⟨?_, hcur1, c, hcidx, hcfree, hctag, hcstart⟩
    intro hcontra
    have hb2free : b2.free = true := by
      rcases find_next_fit_some h2 with ⟨_, b', hb', hf'⟩
      rw [hb2] at hb'
      rw [← Option.some.inj hb'] at hf'
      exact hf'.1
    have hcb2 : c = b2 :=
      pairwise_start_inj (WF.pairwise_lt hWF1) hcidx hb2
        (by rw [hcstart, hcontra])
    rw [hcb2] at hcfree
    rw [hb2free] at hcfree
    cases hcfree

/-- C7 witness: two consecutive successful next-fit allocations of size 50 on
the example ledger select the regions at offsets 0 and 90 respectively, and
after the first one the cursor points at the new allocation's region. -/
theorem C7_next_fit_advances_witness :
    (Block.mk 90 60 true none).start ≠ (Block.mk 0 90 true none).start ∧
    (Memory.mk 300 [Block.mk 0 50 false (some "A"), Block.mk 50 40 true none,
      Block.mk 90 60 true none, Block.mk 150 50 true none,
      Block.mk 200 100 true none] 0).next_fit_index = 0 ∧
    (∃ c, (Memory.mk 300 [Block.mk 0 50 false (some "A"), Block.mk 50 40 true none,
        Block.mk 90 60 true none, Block.mk 150 50 true none,
        Block.mk 200 100 true none] 0).blocks[0]? = some c ∧ c.free = false ∧
      c.tag = some "A" ∧ c.start = (Block.mk 0 90 true none).start) :=
  C7_next_fit_advances (Memory.init 300 (some [90, 60, 50, 100])) ⟨"A", 50⟩ ⟨"B", 50⟩
    (Memory.mk 300 [Block.mk 0 50 false (some "A"), Block.mk 50 40 true none,
      Block.mk 90 60 true none, Block.mk 150 50 true none,
      Block.mk 200 100 true none] 0)
    0 2 (Block.mk 0 90 true none) (Block.mk 90 60 true none)
    (by decide) (by decide) (by decide) rfl rfl rfl rfl rfl
